import Mathlib

/-! # SimpleVector over ArrayPtr

A shallow embedding of `simple-vector/array_ptr.h` and `simple-vector/simple_vector.h`.

Modelling conventions.

* A heap array is a `List α`; the raw pointer of an `ArrayPtr` is `Option (List α)`, with
  `none` for `nullptr`.
* Iterators are raw pointers into the buffer of one vector; they are modelled by their
  offset from `begin()`, so `begin()` is `0` and `end()` is `size_`.
* An access outside the allocation (undefined behaviour in C++) makes the operation return
  `none`; `std::out_of_range` is an `Except` error.
* `new Type[size]` leaves the cells of a scalar type indeterminate: every function that
  allocates takes a parameter `fresh`, the values found in the cells of the array it
  allocates, and the theorems hold for every `fresh`.
* A `const Type&` or `Type&&` parameter is an `Arg`: a reference to an object outside the
  buffer, or to a cell of the buffer the vector holds when the call starts.  It is read
  where the body reads it; once the body has released that buffer, the read of a reference
  into it has no result.
* `std::move` of an element is modelled as a copy.  The value left in a moved-from object is
  unspecified in C++; in this program such an object is a slot that is overwritten next, a
  slot at an index `≥ size_`, or the object the caller passed as an rvalue.
* `size_t` is modelled by `Nat`: the element count of a live allocation is below `2^63`,
  so `capacity * 2` cannot wrap, and allocation itself is assumed to succeed.
-/

namespace SV

/-! ## array_ptr.h -/

/-- Owning handle `ArrayPtr<Type>`: the field `raw_ptr_` is `none` for `nullptr`, else the
heap array it points to. -/
structure ArrayPtr (α : Type) where
  raw_ptr_ : Option (List α)
deriving DecidableEq, Repr

namespace ArrayPtr

variable {α : Type}

/-- Default constructor `ArrayPtr() = default`: the null pointer. -/
def null : ArrayPtr α := ⟨none⟩

/-- Constructor `ArrayPtr(size_t size)`: `new Type[size]` when `size != 0`, otherwise the
pointer stays null.  `new Type[size]` default-initialises, which leaves the cells of a
scalar type indeterminate: `fresh i` is the value found in cell `i` of the new array. -/
def ofSize (size : Nat) (fresh : Nat → α) : ArrayPtr α :=
  if size != 0 then ⟨some ((List.range size).map fresh)⟩ else ⟨none⟩

/-- Read through `operator[]`: `raw_ptr_[index]`; `none` outside the allocation. -/
def index (p : ArrayPtr α) (index : Nat) : Option α :=
  match p.raw_ptr_ with
  | none => none
  | some cells => cells[index]?

/-- Write through `operator[]`: `raw_ptr_[index] = x`; `none` outside the allocation. -/
def assign (p : ArrayPtr α) (index : Nat) (x : α) : Option (ArrayPtr α) :=
  match p.raw_ptr_ with
  | none => none
  | some cells => if index < cells.length then some ⟨some (cells.set index x)⟩ else none

/-- Member `swap`: exchanges the two raw pointers; returns (this, other) afterwards. -/
def swap (self other : ArrayPtr α) : ArrayPtr α × ArrayPtr α :=
  let temp := self.raw_ptr_
  (⟨other.raw_ptr_⟩, ⟨temp⟩)

/-- Move assignment between distinct objects, `raw_ptr_ = std::exchange(other.raw_ptr_, nullptr)`;
returns (this, other) afterwards.  The move constructor has the same body. -/
def moveFrom (other : ArrayPtr α) : ArrayPtr α × ArrayPtr α :=
  (⟨other.raw_ptr_⟩, ⟨none⟩)

/-- Member `Release`: returns the raw pointer and nulls the handle. -/
def Release (p : ArrayPtr α) : Option (List α) × ArrayPtr α :=
  (p.raw_ptr_, ⟨none⟩)

/-- Member `Get`. -/
def Get (p : ArrayPtr α) : Option (List α) := p.raw_ptr_

/-- Conversion `explicit operator bool`. -/
def toBool (p : ArrayPtr α) : Bool := !p.raw_ptr_.isNone

/-- Number of elements of the allocation the handle owns (`0` for the null pointer). -/
def allocated (p : ArrayPtr α) : Nat :=
  match p.raw_ptr_ with
  | none => 0
  | some cells => cells.length

/-- The cells of the owned allocation (none for the null pointer). -/
def cells (p : ArrayPtr α) : List α :=
  match p.raw_ptr_ with
  | none => []
  | some cells => cells

end ArrayPtr

/-! ## Loops over a buffer -/

section Loops

variable {α : Type}

/-- Body of `for (it = first; it != last; ++it) *it = x`, run for `n` iterations from
offset `it`. -/
def fillLoop (x : α) : Nat → Nat → ArrayPtr α → Option (ArrayPtr α)
  | _, 0, p => some p
  | it, n + 1, p => (p.assign it x).bind (fillLoop x (it + 1) n)

/-- The loop `for (it = first; it != last; ++it) *it = x`; a range with `last` before
`first` is invalid. -/
def fill (p : ArrayPtr α) (first last : Nat) (x : α) : Option (ArrayPtr α) :=
  if first ≤ last then fillLoop x first (last - first) p else none

/-- Body of `std::move(first, last, d_first)` when the source is other storage than the
destination: `n` iterations of `*d_first++ = std::move(*first++)`. -/
def moveLoop (read : Nat → Option α) : Nat → Nat → Nat → ArrayPtr α → Option (ArrayPtr α)
  | _, _, 0, dst => some dst
  | first, d_first, n + 1, dst =>
    (read first).bind fun x =>
      (dst.assign d_first x).bind (moveLoop read (first + 1) (d_first + 1) n)

/-- The algorithm `std::move(first, last, d_first)` from a source read through `read` into
the buffer `dst`. -/
def std_move (read : Nat → Option α) (first last : Nat) (dst : ArrayPtr α) (d_first : Nat) :
    Option (ArrayPtr α) :=
  if first ≤ last then moveLoop read first d_first (last - first) dst else none

/-- Body of `std::move(first, last, d_first)` when source and destination are the same
buffer: front to back, each read sees the writes made before it. -/
def moveWithinLoop : Nat → Nat → Nat → ArrayPtr α → Option (ArrayPtr α)
  | _, _, 0, p => some p
  | first, d_first, n + 1, p =>
    (p.index first).bind fun x =>
      (p.assign d_first x).bind (moveWithinLoop (first + 1) (d_first + 1) n)

/-- The algorithm `std::move(first, last, d_first)` inside one buffer. -/
def std_move_within (p : ArrayPtr α) (first last d_first : Nat) : Option (ArrayPtr α) :=
  if first ≤ last then moveWithinLoop first d_first (last - first) p else none

/-- Body of `std::move_backward(first, last, d_last)` inside one buffer: `n` iterations of
`*(--d_last) = std::move(*(--last))`. -/
def moveBackwardLoop : Nat → Nat → Nat → ArrayPtr α → Option (ArrayPtr α)
  | _, _, 0, p => some p
  | last + 1, d_last + 1, n + 1, p =>
    (p.index last).bind fun x =>
      (p.assign d_last x).bind (moveBackwardLoop last d_last n)
  | _, _, _ + 1, _ => none

/-- The algorithm `std::move_backward(first, last, d_last)` inside one buffer. -/
def std_move_backward (p : ArrayPtr α) (first last d_last : Nat) : Option (ArrayPtr α) :=
  if first ≤ last then moveBackwardLoop last d_last (last - first) p else none

end Loops

/-! ## simple_vector.h -/

/-- Class `ReserveProxyObj`. -/
structure ReserveProxyObj where
  capacity_ : Nat
deriving DecidableEq, Repr

/-- Free function `Reserve(size_t capacity_to_reserve)`. -/
def Reserve (capacity_to_reserve : Nat) : ReserveProxyObj :=
  ⟨capacity_to_reserve⟩

/-- Class `SimpleVector<Type>`: the three private data members, in declaration order. -/
structure SimpleVector (α : Type) where
  array_ptr_ : ArrayPtr α
  capacity_ : Nat
  size_ : Nat
deriving DecidableEq, Repr

/-- What a `const Type&` or `Type&&` parameter of `PushBack` or `Insert` refers to: an
object outside the buffer of the vector, holding `x`, or the cell at offset `i` of the
buffer the vector holds when the call starts.  (Through a `Type&&` parameter the body moves
from the object referred to; the move is modelled as a copy, so a cell passed as an rvalue
keeps its value here, where C++ leaves it in an unspecified state.) -/
inductive Arg (α : Type) where
  | external (x : α)
  | cell (i : Nat)
deriving DecidableEq, Repr

/-- Read of the parameter at a point of the body where the vector holds the buffer `buf`.
The flag `released` says that the buffer of the start of the call has been deleted by
then, which leaves a reference into it dangling. -/
def Arg.read {α : Type} (a : Arg α) (buf : ArrayPtr α) (released : Bool) : Option α :=
  match a with
  | Arg.external x => some x
  | Arg.cell i => if released then none else buf.index i

/-- The exception `std::out_of_range` with its message. -/
structure out_of_range where
  what : String
deriving DecidableEq, Repr

namespace SimpleVector

variable {α : Type}

/-- Default constructor `SimpleVector() noexcept = default`. -/
def ctor : SimpleVector α := ⟨ArrayPtr.null, 0, 0⟩

/-- Member `GetSize`. -/
def GetSize (self : SimpleVector α) : Nat := self.size_

/-- Member `GetCapacity`. -/
def GetCapacity (self : SimpleVector α) : Nat := self.capacity_

/-- Member `IsEmpty`. -/
def IsEmpty (self : SimpleVector α) : Bool := self.size_ == 0

/-- Members `begin` and `cbegin`, as an offset into the buffer. -/
def begin (_self : SimpleVector α) : Nat := 0

/-- Members `end` and `cend`, as an offset into the buffer: `&array_ptr_[size_]`. -/
def end_ (self : SimpleVector α) : Nat := self.size_

/-- Constructor `SimpleVector(size_t size)`. -/
def ctor_size [Inhabited α] (fresh : Nat → α) (size : Nat) : Option (SimpleVector α) :=
  let self : SimpleVector α := ⟨ArrayPtr.ofSize size fresh, size, size⟩
  (fill self.array_ptr_ self.begin self.end_ default).map fun p =>
    { self with array_ptr_ := p }

/-- Constructor `SimpleVector(size_t size, const Type& value)`. -/
def ctor_size_value [Inhabited α] (fresh : Nat → α) (size : Nat) (value : α) :
    Option (SimpleVector α) :=
  let self : SimpleVector α := ⟨ArrayPtr.ofSize size fresh, size, size⟩
  (fill self.array_ptr_ self.begin self.end_ value).map fun p =>
    { self with array_ptr_ := p }

/-- Constructor `SimpleVector(std::initializer_list<Type> init)`. -/
def ctor_list [Inhabited α] (fresh : Nat → α) (init : List α) : Option (SimpleVector α) :=
  let self : SimpleVector α := ⟨ArrayPtr.ofSize init.length fresh, init.length, init.length⟩
  (std_move (fun i => init[i]?) 0 init.length self.array_ptr_ self.begin).map fun p =>
    { self with array_ptr_ := p }

/-- Unchecked `operator[]`: `array_ptr_[index]`. -/
def index (self : SimpleVector α) (index : Nat) : Option α :=
  self.array_ptr_.index index

/-- Checked access `At(index)`: throws `std::out_of_range` when `index >= GetSize()`,
otherwise `array_ptr_[index]`. -/
def At (self : SimpleVector α) (index : Nat) : Except out_of_range (Option α) :=
  if index ≥ self.GetSize then
    throw ⟨"Index is out of range"⟩
  else
    pure (self.array_ptr_.index index)

/-- Member `Clear`. -/
def Clear (self : SimpleVector α) : SimpleVector α :=
  { self with size_ := 0 }

/-- Member `swap`; returns (this, other) afterwards. -/
def swap (self other : SimpleVector α) : SimpleVector α × SimpleVector α :=
  let ptrs := self.array_ptr_.swap other.array_ptr_
  (⟨ptrs.1, other.capacity_, other.size_⟩, ⟨ptrs.2, self.capacity_, self.size_⟩)

/-- Member `Resize(size_t new_size)`.  The start of the fill loop,
`std::next(begin() + GetSize() - 1)`, is the pointer `begin() + GetSize()`; its end is
`std::next(begin() + new_size)`, the pointer `begin() + new_size + 1`. -/
def Resize [Inhabited α] (self : SimpleVector α) (fresh : Nat → α) (new_size : Nat) :
    Option (SimpleVector α) :=
  if new_size < self.GetCapacity then
    if new_size > self.size_ then
      (fill self.array_ptr_ (self.begin + self.GetSize) (self.begin + new_size + 1) default).map
        fun p => { self with array_ptr_ := p, size_ := new_size }
    else
      some { self with size_ := new_size }
  else
    let new_capacity := max new_size (self.GetCapacity * 2)
    (ctor_size fresh new_capacity).bind fun new_array =>
      (std_move self.array_ptr_.index self.begin self.end_
          new_array.array_ptr_ new_array.begin).map fun p =>
        (self.swap { new_array with array_ptr_ := p }).1

/-- Private member `ResizeCapacity(size_t new_capacity)`: swaps the buffer and the capacity
with a fresh vector, not the size.  The fresh vector, which then owns the buffer the vector
held before, is destroyed on return, and that buffer with it. -/
def ResizeCapacity [Inhabited α] (self : SimpleVector α) (fresh : Nat → α)
    (new_capacity : Nat) : Option (SimpleVector α) :=
  (ctor_size fresh new_capacity).bind fun new_array =>
    (std_move self.array_ptr_.index self.begin self.end_
        new_array.array_ptr_ new_array.begin).map fun p =>
      { self with array_ptr_ := (self.array_ptr_.swap p).1, capacity_ := new_array.capacity_ }

/-- Copy constructor `SimpleVector(const SimpleVector& other)`. -/
def ctor_copy [Inhabited α] (fresh : Nat → α) (other : SimpleVector α) :
    Option (SimpleVector α) :=
  let self : SimpleVector α :=
    ⟨ArrayPtr.ofSize other.GetSize fresh, other.GetSize, other.GetSize⟩
  (std_move other.array_ptr_.index other.begin other.end_ self.array_ptr_ self.begin).map
    fun p => { self with array_ptr_ := p }

/-- Copy assignment `operator=(const SimpleVector& rhs)` with `this != &rhs`: returns
(this, rhs) afterwards. -/
def assign_copy [Inhabited α] (self : SimpleVector α) (fresh : Nat → α)
    (rhs : SimpleVector α) : Option (SimpleVector α × SimpleVector α) :=
  (ctor_copy fresh rhs).map fun vector_copy => ((self.swap vector_copy).1, rhs)

/-- Copy assignment `operator=(const SimpleVector& rhs)` with `this == &rhs`: the guard
skips the body. -/
def assign_copy_self (self : SimpleVector α) : SimpleVector α := self

/-- The growth step shared by `PushBack` and `Insert`:
`if (capacity_ == 0) ResizeCapacity(1); else if (size_ == capacity_) ResizeCapacity(capacity_ * 2);`. -/
def growStep [Inhabited α] (self : SimpleVector α) (fresh : Nat → α) :
    Option (SimpleVector α) :=
  if self.capacity_ == 0 then
    self.ResizeCapacity fresh 1
  else if self.size_ == self.capacity_ then
    self.ResizeCapacity fresh (self.GetCapacity * 2)
  else
    some self

/-- Whether the growth step releases the buffer the vector holds: it does in the two
branches that call `ResizeCapacity`. -/
def growStep_releases (self : SimpleVector α) : Bool :=
  if self.capacity_ == 0 then
    true
  else if self.size_ == self.capacity_ then
    true
  else
    false

/-- Member `PushBack` (both overloads have this body): the growth step, then
`array_ptr_[size_] = std::move(item)`, which reads the parameter `item` after the growth
step, then `++size_`. -/
def PushBack [Inhabited α] (self : SimpleVector α) (fresh : Nat → α) (item : Arg α) :
    Option (SimpleVector α) :=
  (self.growStep fresh).bind fun s =>
    (item.read s.array_ptr_ self.growStep_releases).bind fun x =>
      (s.array_ptr_.assign s.size_ x).map fun p =>
        { s with array_ptr_ := p, size_ := s.size_ + 1 }

/-- Member `Insert` (both overloads have this body).  The position is the offset
`pos - cbegin()`; the parameter `value` is read by `array_ptr_[pos_distance] =
std::move(value)`, after the growth step and after `std::move_backward`; the result is the
new state and the offset of the returned iterator `&array_ptr_[pos_distance]`. -/
def Insert [Inhabited α] (self : SimpleVector α) (fresh : Nat → α) (pos : Nat)
    (value : Arg α) : Option (SimpleVector α × Nat) :=
  let pos_distance := pos - self.begin
  (self.growStep fresh).bind fun s =>
    (std_move_backward s.array_ptr_ (s.begin + pos_distance) s.end_ (s.end_ + 1)).bind fun p =>
      (value.read p self.growStep_releases).bind fun x =>
        (p.assign pos_distance x).map fun q =>
          ({ s with array_ptr_ := q, size_ := s.size_ + 1 }, pos_distance)

/-- Member `PopBack`. -/
def PopBack (self : SimpleVector α) : SimpleVector α :=
  if self.size_ > 0 then { self with size_ := self.size_ - 1 } else self

/-- Member `Erase`.  The position is the offset `pos - cbegin()`; the result is the new
state and the offset of the returned iterator `&array_ptr_[pos_distance]`. -/
def Erase (self : SimpleVector α) (pos : Nat) : Option (SimpleVector α × Nat) :=
  let pos_distance := pos - self.begin
  (std_move_within self.array_ptr_ (self.begin + pos_distance + 1) self.end_
      (self.begin + pos_distance)).map fun p =>
    (PopBack { self with array_ptr_ := p }, pos_distance)

/-- Constructor `SimpleVector(ReserveProxyObj reserve)`. -/
def ctor_reserve [Inhabited α] (fresh : Nat → α) (reserve : ReserveProxyObj) :
    Option (SimpleVector α) :=
  (ctor_size fresh reserve.capacity_).map fun self => { self with size_ := 0 }

/-- Member `Reserve(size_t new_capacity)`. -/
def Reserve [Inhabited α] (self : SimpleVector α) (fresh : Nat → α) (new_capacity : Nat) :
    Option (SimpleVector α) :=
  if self.capacity_ ≥ new_capacity then some self else self.ResizeCapacity fresh new_capacity

/-- Move constructor `SimpleVector(SimpleVector&& other)`; returns (this, other) afterwards. -/
def ctor_move (other : SimpleVector α) : SimpleVector α × SimpleVector α :=
  let ptrs := ArrayPtr.moveFrom other.array_ptr_
  (⟨ptrs.1, other.capacity_, other.size_⟩, ⟨ptrs.2, 0, 0⟩)

/-- Move assignment `operator=(SimpleVector&& other)` with `this != &other`; returns
(this, other) afterwards. -/
def assign_move (_self other : SimpleVector α) : SimpleVector α × SimpleVector α :=
  let ptrs := ArrayPtr.moveFrom other.array_ptr_
  (⟨ptrs.1, other.capacity_, other.size_⟩, ⟨ptrs.2, 0, 0⟩)

/-- Move assignment `operator=(SimpleVector&& other)` with `this == &other`: the guard
skips the body. -/
def assign_move_self (self : SimpleVector α) : SimpleVector α := self

/-- The live elements, the view from `begin()` to `end()`. -/
def content (self : SimpleVector α) : List α :=
  self.array_ptr_.cells.take self.size_

/-- Representation invariant: `size_ ≤ capacity_`, the capacity is the element count of the
allocation, and the capacity is zero exactly when the buffer pointer is null. -/
def Inv (self : SimpleVector α) : Prop :=
  self.size_ ≤ self.capacity_ ∧
  self.capacity_ = self.array_ptr_.allocated ∧
  (self.capacity_ = 0 ↔ self.array_ptr_.raw_ptr_ = none)

end SimpleVector

/-! ## Comparison operators of simple_vector.h -/

section Comparisons

variable {α : Type}

/-- Body of `std::equal` on two ranges of the same length `n`: `false` at the first pair of
elements that are not `==`. -/
def equalLoop (eq : α → α → Bool) (read1 read2 : Nat → Option α) :
    Nat → Nat → Nat → Option Bool
  | _, _, 0 => some true
  | first1, first2, n + 1 =>
    (read1 first1).bind fun a =>
      (read2 first2).bind fun b =>
        if !(eq a b) then some false else equalLoop eq read1 read2 (first1 + 1) (first2 + 1) n

/-- The algorithm `std::equal(first1, last1, first2, last2)` on random-access ranges: ranges
of different lengths are unequal without any element being read. -/
def std_equal (eq : α → α → Bool) (read1 : Nat → Option α) (first1 last1 : Nat)
    (read2 : Nat → Option α) (first2 last2 : Nat) : Option Bool :=
  if first1 ≤ last1 ∧ first2 ≤ last2 then
    if last1 - first1 != last2 - first2 then some false
    else equalLoop eq read1 read2 first1 first2 (last1 - first1)
  else none

/-- Body of `std::lexicographical_compare`, with `n1` and `n2` elements left in the two
ranges: the loop runs while both are non-empty, then
`return (first1 == last1) && (first2 != last2)`. -/
def lexLoop (lt : α → α → Bool) (read1 read2 : Nat → Option α) :
    Nat → Nat → Nat → Nat → Option Bool
  | first1, first2, n1 + 1, n2 + 1 =>
    (read1 first1).bind fun a =>
      (read2 first2).bind fun b =>
        if lt a b then some true
        else if lt b a then some false
        else lexLoop lt read1 read2 (first1 + 1) (first2 + 1) n1 n2
  | _, _, 0, n2 => some (n2 != 0)
  | _, _, _ + 1, 0 => some false

/-- The algorithm `std::lexicographical_compare(first1, last1, first2, last2)`. -/
def std_lexicographical_compare (lt : α → α → Bool) (read1 : Nat → Option α)
    (first1 last1 : Nat) (read2 : Nat → Option α) (first2 last2 : Nat) : Option Bool :=
  if first1 ≤ last1 ∧ first2 ≤ last2 then
    lexLoop lt read1 read2 first1 first2 (last1 - first1) (last2 - first2)
  else none

/-- Free `operator==`; `eq` is the `==` of the element type. -/
def operator_eq (eq : α → α → Bool) (lhs rhs : SimpleVector α) : Option Bool :=
  if lhs.GetSize != rhs.GetSize then some false
  else std_equal eq lhs.array_ptr_.index lhs.begin lhs.end_ rhs.array_ptr_.index rhs.begin rhs.end_

/-- Free `operator!=`. -/
def operator_ne (eq : α → α → Bool) (lhs rhs : SimpleVector α) : Option Bool :=
  (operator_eq eq rhs lhs).map fun b => !b

/-- Free `operator<`; `lt` is the `<` of the element type. -/
def operator_lt (lt : α → α → Bool) (lhs rhs : SimpleVector α) : Option Bool :=
  std_lexicographical_compare lt lhs.array_ptr_.index lhs.begin lhs.end_
    rhs.array_ptr_.index rhs.begin rhs.end_

/-- Free `operator<=`. -/
def operator_le (lt : α → α → Bool) (lhs rhs : SimpleVector α) : Option Bool :=
  (operator_lt lt rhs lhs).map fun b => !b

/-- Free `operator>`. -/
def operator_gt (lt : α → α → Bool) (lhs rhs : SimpleVector α) : Option Bool :=
  operator_lt lt rhs lhs

/-- Free `operator>=`. -/
def operator_ge (lt : α → α → Bool) (lhs rhs : SimpleVector α) : Option Bool :=
  (operator_lt lt lhs rhs).map fun b => !b

end Comparisons

/-! ## Auxiliary definitions used in the statements -/

section Aux

variable {α : Type}

/-- The buffer a fresh vector of `n` slots holds after its fill loop with `x`. -/
def filled (n : Nat) (x : α) : ArrayPtr α :=
  if n = 0 then ⟨none⟩ else ⟨some (List.replicate n x)⟩

/-- The buffer after relocation of the live elements into `m` fresh slots. -/
def relocated [Inhabited α] (v : SimpleVector α) (m : Nat) : ArrayPtr α :=
  if m = 0 then ⟨none⟩ else ⟨some (v.content ++ List.replicate (m - v.size_) default)⟩

/-- The capacity the growth step of `PushBack` and `Insert` leaves, branch by branch. -/
def grownCapacity (v : SimpleVector α) : Nat :=
  if v.capacity_ = 0 then 1 else if v.size_ = v.capacity_ then v.capacity_ * 2 else v.capacity_

/-- Successive `PushBack` calls with the values of `xs`, in order, each value held outside
the vector; `fresh k` gives the cells of the array the call number `k` allocates. -/
def PushBackAll [Inhabited α] (fresh : Nat → Nat → α) (v : SimpleVector α) :
    List α → Option (SimpleVector α)
  | [] => some v
  | x :: xs =>
    (v.PushBack (fresh 0) (Arg.external x)).bind fun w =>
      PushBackAll (fun k => fresh (k + 1)) w xs

/-- Equality of two sequences as the specification states it: the same number of elements,
and the elements equal position by position. -/
def seqEqual (eq : α → α → Bool) : List α → List α → Bool
  | [], [] => true
  | x :: xs, y :: ys => eq x y && seqEqual eq xs ys
  | _, _ => false

/-- The lexicographic order of two sequences as the specification states it: at the first
position where one element is below the other that comparison decides, and when one sequence
ends before such a position, the shorter one is the smaller. -/
def lexLess (lt : α → α → Bool) : List α → List α → Bool
  | [], [] => false
  | [], _ :: _ => true
  | _ :: _, [] => false
  | x :: xs, y :: ys => if lt x y then true else if lt y x then false else lexLess lt xs ys

/-- Size `s` and capacity `c` on the doubling path from the empty vector: both zero, or `c`
a power of two with `s` in the upper half of `1 .. c`. -/
def OnDoublingPath (s c : Nat) : Prop :=
  (s = 0 ∧ c = 0) ∨ ∃ k, c = 2 ^ k ∧ 0 < s ∧ s ≤ 2 ^ k ∧ (k = 0 ∨ 2 ^ (k - 1) < s)

/-- The states a program can build: the result of any constructor, and the result of any
member called on states built before (`Insert` and `Erase` within their position
precondition). -/
inductive Reachable [Inhabited α] : SimpleVector α → Prop
  | ctor : Reachable SimpleVector.ctor
  | ctor_size (fresh : Nat → α) (n : Nat) (v : SimpleVector α) :
      SimpleVector.ctor_size fresh n = some v → Reachable v
  | ctor_size_value (fresh : Nat → α) (n : Nat) (x : α) (v : SimpleVector α) :
      SimpleVector.ctor_size_value fresh n x = some v → Reachable v
  | ctor_list (fresh : Nat → α) (init : List α) (v : SimpleVector α) :
      SimpleVector.ctor_list fresh init = some v → Reachable v
  | ctor_reserve (fresh : Nat → α) (n : Nat) (v : SimpleVector α) :
      SimpleVector.ctor_reserve fresh (SV.Reserve n) = some v → Reachable v
  | ctor_copy (fresh : Nat → α) (o v : SimpleVector α) :
      Reachable o → SimpleVector.ctor_copy fresh o = some v → Reachable v
  | ctor_move_this (o : SimpleVector α) : Reachable o → Reachable (SimpleVector.ctor_move o).1
  | ctor_move_other (o : SimpleVector α) : Reachable o → Reachable (SimpleVector.ctor_move o).2
  | Clear (v : SimpleVector α) : Reachable v → Reachable v.Clear
  | Resize (fresh : Nat → α) (v : SimpleVector α) (k : Nat) (w : SimpleVector α) :
      Reachable v → v.Resize fresh k = some w → Reachable w
  | PushBack (fresh : Nat → α) (v : SimpleVector α) (x : Arg α) (w : SimpleVector α) :
      Reachable v → v.PushBack fresh x = some w → Reachable w
  | Insert (fresh : Nat → α) (v : SimpleVector α) (p : Nat) (x : Arg α) (w : SimpleVector α)
      (q : Nat) :
      Reachable v → p ≤ v.GetSize → v.Insert fresh p x = some (w, q) → Reachable w
  | PopBack (v : SimpleVector α) : Reachable v → Reachable v.PopBack
  | Erase (v : SimpleVector α) (p : Nat) (w : SimpleVector α) (q : Nat) :
      Reachable v → p < v.GetSize → v.Erase p = some (w, q) → Reachable w
  | Reserve (fresh : Nat → α) (v : SimpleVector α) (n : Nat) (w : SimpleVector α) :
      Reachable v → v.Reserve fresh n = some w → Reachable w
  | swap_this (a b : SimpleVector α) : Reachable a → Reachable b → Reachable (a.swap b).1
  | swap_other (a b : SimpleVector α) : Reachable a → Reachable b → Reachable (a.swap b).2
  | assign_copy_this (fresh : Nat → α) (a b : SimpleVector α)
      (r : SimpleVector α × SimpleVector α) :
      Reachable a → Reachable b → a.assign_copy fresh b = some r → Reachable r.1
  | assign_copy_rhs (fresh : Nat → α) (a b : SimpleVector α)
      (r : SimpleVector α × SimpleVector α) :
      Reachable a → Reachable b → a.assign_copy fresh b = some r → Reachable r.2
  | assign_copy_self (a : SimpleVector α) : Reachable a → Reachable a.assign_copy_self
  | assign_move_this (a b : SimpleVector α) :
      Reachable a → Reachable b → Reachable (a.assign_move b).1
  | assign_move_other (a b : SimpleVector α) :
      Reachable a → Reachable b → Reachable (a.assign_move b).2
  | assign_move_self (a : SimpleVector α) : Reachable a → Reachable a.assign_move_self

end Aux

/-! ## Buffer cells and single accesses -/

section Lemmas

variable {α : Type}

theorem ArrayPtr.index_some (l : List α) (i : Nat) :
    (ArrayPtr.mk (some l)).index i = l[i]? := rfl

theorem ArrayPtr.assign_some (l : List α) (i : Nat) (x : α) (h : i < l.length) :
    (ArrayPtr.mk (some l)).assign i x = some ⟨some (l.set i x)⟩ := by
  simp [ArrayPtr.assign, h]

/-- The fill loop writes `x` to the `n` slots from `it` on and nothing else. -/
theorem fillLoop_spec (x : α) (n : Nat) : ∀ (it : Nat) (l : List α), it + n ≤ l.length →
    ∃ r, fillLoop x it n ⟨some l⟩ = some ⟨some r⟩ ∧ r.length = l.length ∧
      ∀ i, r[i]? = if it ≤ i ∧ i < it + n then some x else l[i]? := by
  induction n with
  | zero =>
    intro it l _
    refine ⟨l, rfl, rfl, fun i => ?_⟩
    rw [if_neg (by omega)]
  | succ n ih =>
    intro it l h
    obtain ⟨r, hr, hlen, hget⟩ := ih (it + 1) (l.set it x) (by simp; omega)
    refine ⟨r, ?_, by simpa using hlen, fun i => ?_⟩
    · rw [fillLoop, ArrayPtr.assign_some l it x (by omega)]
      simpa using hr
    · rw [hget i, List.getElem?_set]
      by_cases h1 : it = i
      · subst h1
        have h2 : it < l.length := by omega
        simp [h2]
      · by_cases h2 : it + 1 ≤ i ∧ i < it + 1 + n
        · have h3 : it ≤ i ∧ i < it + (n + 1) := by omega
          simp [h2, h3]
        · have h3 : ¬ (it ≤ i ∧ i < it + (n + 1)) := by omega
          simp [h1, h2, h3]

/-- A move from other storage writes the `n` values read from `first` on to the slots from
`d_first` on and nothing else. -/
theorem moveLoop_spec (read : Nat → Option α) (n : Nat) :
    ∀ (first d_first : Nat) (l : List α), d_first + n ≤ l.length →
      (∀ k, k < n → (read (first + k)).isSome) →
    ∃ r, moveLoop read first d_first n ⟨some l⟩ = some ⟨some r⟩ ∧ r.length = l.length ∧
      ∀ i, r[i]? = if d_first ≤ i ∧ i < d_first + n then read (first + (i - d_first))
        else l[i]? := by
  induction n with
  | zero =>
    intro first d l _ _
    refine ⟨l, rfl, rfl, fun i => ?_⟩
    rw [if_neg (by omega)]
  | succ n ih =>
    intro first d l h hread
    obtain ⟨x, hx⟩ := Option.isSome_iff_exists.mp (hread 0 (by omega))
    simp only [Nat.add_zero] at hx
    obtain ⟨r, hr, hlen, hget⟩ := ih (first + 1) (d + 1) (l.set d x) (by simp; omega)
      (fun k hk => by
        have := hread (k + 1) (by omega)
        rwa [show first + (k + 1) = first + 1 + k by omega] at this)
    refine ⟨r, ?_, by simpa using hlen, fun i => ?_⟩
    · rw [moveLoop, hx, Option.some_bind, ArrayPtr.assign_some l d x (by omega)]
      simpa using hr
    · rw [hget i, List.getElem?_set]
      by_cases h1 : d = i
      · subst h1
        have h2 : d < l.length := by omega
        simp [h2, hx]
      · by_cases h2 : d + 1 ≤ i ∧ i < d + 1 + n
        · have h3 : d ≤ i ∧ i < d + (n + 1) := by omega
          have h4 : first + 1 + (i - (d + 1)) = first + (i - d) := by omega
          simp [h2, h3, h4]
        · have h3 : ¬ (d ≤ i ∧ i < d + (n + 1)) := by omega
          simp [h1, h2, h3]

/-- A front-to-back move inside one buffer towards lower offsets copies the `n` cells from
`first` on to the slots from `d_first` on. -/
theorem moveWithinLoop_spec (n : Nat) :
    ∀ (first d_first : Nat) (l : List α), d_first ≤ first → first + n ≤ l.length →
    ∃ r, moveWithinLoop first d_first n ⟨some l⟩ = some ⟨some r⟩ ∧ r.length = l.length ∧
      ∀ i, r[i]? = if d_first ≤ i ∧ i < d_first + n then l[first + (i - d_first)]?
        else l[i]? := by
  induction n with
  | zero =>
    intro first d l _ _
    refine ⟨l, rfl, rfl, fun i => ?_⟩
    rw [if_neg (by omega)]
  | succ n ih =>
    intro first d l hd h
    have hf : first < l.length := by omega
    obtain ⟨r, hr, hlen, hget⟩ := ih (first + 1) (d + 1) (l.set d l[first]) (by omega)
      (by simp; omega)
    refine ⟨r, ?_, by simpa using hlen, fun i => ?_⟩
    · rw [moveWithinLoop, ArrayPtr.index_some, List.getElem?_eq_getElem hf, Option.some_bind,
        ArrayPtr.assign_some l d _ (by omega)]
      simpa using hr
    · rw [hget i]
      by_cases h1 : d = i
      · subst h1
        have h2 : ¬ (d + 1 ≤ d ∧ d < d + 1 + n) := by omega
        have h3 : d ≤ d ∧ d < d + (n + 1) := by omega
        have h4 : d < l.length := by omega
        simp [h2, h3, List.getElem?_set, h4, List.getElem?_eq_getElem hf]
      · by_cases h2 : d + 1 ≤ i ∧ i < d + 1 + n
        · have h3 : d ≤ i ∧ i < d + (n + 1) := by omega
          have h4 : first + 1 + (i - (d + 1)) = first + (i - d) := by omega
          have h5 : d ≠ first + (i - d) := by omega
          simp [h2, h3, h4, List.getElem?_set, h5]
        · have h3 : ¬ (d ≤ i ∧ i < d + (n + 1)) := by omega
          simp [h1, h2, h3, List.getElem?_set]

/-- A back-to-front move inside one buffer towards higher offsets copies the `n` cells
below `last` to the slots below `d_last`. -/
theorem moveBackwardLoop_spec (n : Nat) :
    ∀ (last d_last : Nat) (l : List α), last ≤ d_last → n ≤ last → d_last ≤ l.length →
    ∃ r, moveBackwardLoop last d_last n ⟨some l⟩ = some ⟨some r⟩ ∧ r.length = l.length ∧
      ∀ i, r[i]? = if d_last - n ≤ i ∧ i < d_last then l[i - (d_last - last)]?
        else l[i]? := by
  induction n with
  | zero =>
    intro last d l _ _ _
    refine ⟨l, by simp [moveBackwardLoop], rfl, fun i => ?_⟩
    rw [if_neg (by omega)]
  | succ n ih =>
    intro last d l hd hn h
    obtain ⟨last, rfl⟩ : ∃ k, last = k + 1 := ⟨last - 1, by omega⟩
    obtain ⟨d, rfl⟩ : ∃ k, d = k + 1 := ⟨d - 1, by omega⟩
    have hf : last < l.length := by omega
    obtain ⟨r, hr, hlen, hget⟩ := ih last d (l.set d l[last]) (by omega) (by omega)
      (by simp; omega)
    refine ⟨r, ?_, by simpa using hlen, fun i => ?_⟩
    · rw [moveBackwardLoop, ArrayPtr.index_some, List.getElem?_eq_getElem hf, Option.some_bind,
        ArrayPtr.assign_some l d _ (by omega)]
      simpa using hr
    · rw [hget i]
      by_cases h1 : d = i
      · subst h1
        rw [if_neg (by omega), if_pos (by omega), List.getElem?_set, if_pos rfl,
          if_pos (by omega), show d - (d + 1 - (last + 1)) = last by omega,
          List.getElem?_eq_getElem hf]
      · by_cases h2 : d - n ≤ i ∧ i < d
        · rw [if_pos h2, if_pos (by omega), List.getElem?_set, if_neg (by omega),
            show i - (d + 1 - (last + 1)) = i - (d - last) by omega]
        · rw [if_neg h2, if_neg (by omega), List.getElem?_set, if_neg h1]

/-! ## The representation invariant and the constructors -/

theorem Inv_shape {v : SimpleVector α} (h : v.Inv) :
    (v.array_ptr_ = ⟨none⟩ ∧ v.capacity_ = 0 ∧ v.size_ = 0) ∨
    ∃ l, v.array_ptr_ = ⟨some l⟩ ∧ l.length = v.capacity_ ∧ 0 < v.capacity_ ∧
      v.size_ ≤ v.capacity_ := by
  obtain ⟨h1, h2, h3⟩ := h
  rcases v with ⟨⟨_ | l⟩, c, s⟩
  · left
    have h2b : c = 0 := h2
    have h1b : s ≤ c := h1
    have h0 : s = 0 := by omega
    exact ⟨rfl, h2b, h0⟩
  · right
    have h2b : c = l.length := h2
    have h1b : s ≤ c := h1
    have h4 : c ≠ 0 := fun hc => by simpa using h3.mp hc
    have h5 : 0 < c := by omega
    exact ⟨l, rfl, h2b.symm, h5, h1b⟩

theorem Inv_of_some (l : List α) (c s : Nat) (hl : l.length = c) (hc : 0 < c) (hs : s ≤ c) :
    (SimpleVector.mk ⟨some l⟩ c s).Inv := by
  refine ⟨hs, hl.symm, ?_⟩
  constructor
  · intro h
    simp only at h
    omega
  · intro h
    simp at h

theorem Inv_of_null (α : Type) : (SimpleVector.mk (⟨none⟩ : ArrayPtr α) 0 0).Inv :=
  ⟨Nat.le_refl 0, rfl, by simp⟩

/-- Below `size_` the unchecked read is the entry of the live content, under the invariant. -/
theorem index_eq_content {v : SimpleVector α} (h : v.Inv) {i : Nat} (hi : i < v.size_) :
    v.index i = v.content[i]? := by
  rcases Inv_shape h with ⟨_, _, h0⟩ | ⟨l, hl, _, _, _⟩
  · omega
  · simp [SimpleVector.index, SimpleVector.content, hl, ArrayPtr.index, ArrayPtr.cells,
      List.getElem?_take, hi]

theorem content_length {v : SimpleVector α} (h : v.Inv) : v.content.length = v.size_ := by
  rcases Inv_shape h with ⟨hl, _, h0⟩ | ⟨l, hl, hlen, _, hs⟩
  · simp [SimpleVector.content, hl, ArrayPtr.cells, h0]
  · simp [SimpleVector.content, hl, ArrayPtr.cells]
    omega

theorem index_isSome {v : SimpleVector α} (h : v.Inv) {i : Nat} (hi : i < v.size_) :
    (v.index i).isSome := by
  rw [index_eq_content h hi]
  have := content_length h
  rw [List.getElem?_eq_getElem (by omega)]
  rfl

theorem fill_ofSize (fresh : Nat → α) (n : Nat) (x : α) :
    fill (ArrayPtr.ofSize n fresh) 0 n x = some (filled n x) := by
  by_cases hn : n = 0
  · subst hn
    simp [fill, fillLoop, ArrayPtr.ofSize, filled]
  · obtain ⟨r, hr, hlen, hget⟩ := fillLoop_spec x n 0 ((List.range n).map fresh) (by simp)
    have hrep : r = List.replicate n x := by
      apply List.ext_getElem?
      intro i
      rw [hget i, List.getElem?_replicate]
      by_cases hi : i < n
      · rw [if_pos (by omega), if_pos hi]
      · rw [if_neg (by omega), if_neg hi, List.getElem?_eq_none (by simp; omega)]
    subst hrep
    simp [fill, ArrayPtr.ofSize, hn, filled, hr]

/-- The constructor `SimpleVector(size_t)` leaves the default value in every cell, whatever
the allocation held. -/
theorem ctor_size_eq [Inhabited α] (fresh : Nat → α) (n : Nat) :
    SimpleVector.ctor_size fresh n = some ⟨filled n default, n, n⟩ := by
  simp [SimpleVector.ctor_size, SimpleVector.begin, SimpleVector.end_, fill_ofSize]

theorem ctor_size_value_eq [Inhabited α] (fresh : Nat → α) (n : Nat) (x : α) :
    SimpleVector.ctor_size_value fresh n x = some ⟨filled n x, n, n⟩ := by
  simp [SimpleVector.ctor_size_value, SimpleVector.begin, SimpleVector.end_, fill_ofSize]

theorem Inv_filled (n s : Nat) (x : α) (hs : s ≤ n) :
    (SimpleVector.mk (filled n x) n s).Inv := by
  by_cases hn : n = 0
  · subst hn
    have : s = 0 := by omega
    subst this
    simpa [filled] using Inv_of_null α
  · simpa [filled, hn] using Inv_of_some (List.replicate n x) n s (by simp) (by omega) hs

/-- Moving `s` values read through `read` into a fresh buffer of `m ≥ s` default slots. -/
theorem std_move_filled [Inhabited α] (read : Nat → Option α) (src : List α) (s m : Nat)
    (hsrc : src.length = s) (hread : ∀ i, i < s → read i = src[i]?) (hm : s ≤ m) :
    std_move read 0 s (filled m (default : α)) 0 =
      some (if m = 0 then ⟨none⟩ else ⟨some (src ++ List.replicate (m - s) default)⟩) := by
  by_cases hm0 : m = 0
  · subst hm0
    have : s = 0 := by omega
    subst this
    simp [std_move, moveLoop, filled]
  · obtain ⟨r, hr, hlen, hget⟩ := moveLoop_spec read s 0 0 (List.replicate m default)
      (by simp; omega) (fun k hk => by
        rw [Nat.zero_add, hread k hk, List.getElem?_eq_getElem (by omega)]
        rfl)
    have hrep : r = src ++ List.replicate (m - s) default := by
      apply List.ext_getElem?
      intro i
      rw [hget i, List.getElem?_append]
      by_cases hi : i < s
      · rw [if_pos (by omega), if_pos (by omega), Nat.zero_add, Nat.sub_zero, hread i hi]
      · rw [if_neg (by omega), if_neg (by omega), List.getElem?_replicate,
          List.getElem?_replicate, hsrc]
        by_cases hi2 : i < m
        · rw [if_pos hi2, if_pos (by omega)]
        · rw [if_neg hi2, if_neg (by omega)]
    subst hrep
    simp [std_move, filled, hm0, hr]

/-- Moving `s` values read through `read` into a new array of exactly `s` cells overwrites
every cell. -/
theorem std_move_exact (fresh : Nat → α) (read : Nat → Option α) (src : List α) (s : Nat)
    (hsrc : src.length = s) (hread : ∀ i, i < s → read i = src[i]?) :
    std_move read 0 s (ArrayPtr.ofSize s fresh) 0 =
      some (if s = 0 then ⟨none⟩ else ⟨some src⟩) := by
  by_cases hs0 : s = 0
  · subst hs0
    simp [std_move, moveLoop, ArrayPtr.ofSize]
  · obtain ⟨r, hr, hlen, hget⟩ := moveLoop_spec read s 0 0 ((List.range s).map fresh)
      (by simp) (fun k hk => by
        rw [Nat.zero_add, hread k hk, List.getElem?_eq_getElem (by omega)]
        rfl)
    have hrep : r = src := by
      apply List.ext_getElem?
      intro i
      rw [hget i]
      by_cases hi : i < s
      · rw [if_pos (by omega), Nat.zero_add, Nat.sub_zero, hread i hi]
      · rw [if_neg (by omega), List.getElem?_eq_none (by simp; omega),
          List.getElem?_eq_none (by omega)]
    subst hrep
    simp [std_move, ArrayPtr.ofSize, hs0, hr]

theorem ctor_list_eq [Inhabited α] (fresh : Nat → α) (init : List α) :
    SimpleVector.ctor_list fresh init =
      some ⟨if init.length = 0 then ⟨none⟩ else ⟨some init⟩, init.length, init.length⟩ := by
  have h := std_move_exact fresh (fun i => init[i]?) init init.length rfl (fun _ _ => rfl)
  simp [SimpleVector.ctor_list, SimpleVector.begin, h]

theorem std_move_relocate [Inhabited α] {v : SimpleVector α} (h : v.Inv) (m : Nat)
    (hm : v.size_ ≤ m) :
    std_move v.array_ptr_.index 0 v.size_ (filled m (default : α)) 0 = some (relocated v m) :=
  std_move_filled v.array_ptr_.index v.content v.size_ m (content_length h)
    (fun _ hi => index_eq_content h hi) hm

theorem Inv_relocated [Inhabited α] {v : SimpleVector α} (h : v.Inv) (m s : Nat)
    (hm : v.size_ ≤ m) (hs : s ≤ m) : (SimpleVector.mk (relocated v m) m s).Inv := by
  by_cases hm0 : m = 0
  · subst hm0
    have : s = 0 := by omega
    subst this
    simpa [relocated] using Inv_of_null α
  · have hl := content_length h
    simpa [relocated, hm0] using
      Inv_of_some (v.content ++ List.replicate (m - v.size_) default) m s
        (by simp [hl]; omega) (by omega) hs

theorem ResizeCapacity_eq [Inhabited α] {v : SimpleVector α} (h : v.Inv) (fresh : Nat → α)
    (m : Nat) (hm : v.size_ ≤ m) :
    v.ResizeCapacity fresh m = some ⟨relocated v m, m, v.size_⟩ := by
  simp [SimpleVector.ResizeCapacity, ctor_size_eq, SimpleVector.begin, SimpleVector.end_,
    std_move_relocate h m hm, ArrayPtr.swap]

/-! ## The growth step, PushBack, Insert, Erase -/

theorem growStep_spec [Inhabited α] {v : SimpleVector α} (h : v.Inv) (fresh : Nat → α) :
    ∃ l, v.growStep fresh = some ⟨⟨some l⟩, grownCapacity v, v.size_⟩ ∧
      l.length = grownCapacity v ∧ v.size_ < grownCapacity v ∧ v.capacity_ ≤ grownCapacity v ∧
      l.take v.size_ = v.content := by
  have hlen := content_length h
  rcases Inv_shape h with ⟨hl, hc, hs⟩ | ⟨l, hl, hll, hc, hs⟩
  · refine ⟨v.content ++ List.replicate (1 - v.size_) default, ?_, ?_, ?_, ?_, ?_⟩
    · simp [SimpleVector.growStep, hc, ResizeCapacity_eq h fresh 1 (by omega), relocated,
        grownCapacity]
    · simp [grownCapacity, hc, hlen, hs]
    · simp [grownCapacity, hc, hs]
    · simp [grownCapacity, hc]
    · rw [← hlen, List.take_left]
  · by_cases hfull : v.size_ = v.capacity_
    · have hg : grownCapacity v = v.capacity_ * 2 := by
        simp [grownCapacity, hfull, Nat.pos_iff_ne_zero.mp hc]
      refine ⟨v.content ++ List.replicate (v.capacity_ * 2 - v.size_) default, ?_, ?_, ?_, ?_, ?_⟩
      · have hne : ¬ (v.capacity_ * 2 = 0) := by omega
        simp [SimpleVector.growStep, Nat.pos_iff_ne_zero.mp hc, hfull, SimpleVector.GetCapacity,
          ResizeCapacity_eq h fresh (v.capacity_ * 2) (by omega), relocated, hg, hne]
      · rw [hg, List.length_append, List.length_replicate, hlen]
        omega
      · omega
      · omega
      · rw [← hlen, List.take_left]
    · have hg : grownCapacity v = v.capacity_ := by
        simp [grownCapacity, hfull, Nat.pos_iff_ne_zero.mp hc]
      refine ⟨l, ?_, ?_, ?_, ?_, ?_⟩
      · rcases v with ⟨a, c, s⟩
        simp only at hl
        subst hl
        simp only at hfull hc
        simp [SimpleVector.growStep, Nat.pos_iff_ne_zero.mp hc, hfull, grownCapacity]
      · omega
      · omega
      · omega
      · simp [SimpleVector.content, hl, ArrayPtr.cells]

/-- Without release the growth step leaves the state as it is. -/
theorem growStep_keeps [Inhabited α] {v : SimpleVector α} (fresh : Nat → α)
    (hrel : v.growStep_releases = false) : v.growStep fresh = some v := by
  unfold SimpleVector.growStep_releases at hrel
  unfold SimpleVector.growStep
  split
  · rename_i h0
    simp [h0] at hrel
  · rename_i h0
    split
    · rename_i h1
      simp [h0, h1] at hrel
    · rfl

/-- The state after the write of `x` at slot `size_` of a grown buffer `l`. -/
theorem pushed_ok {v : SimpleVector α} (l : List α) (c : Nat) (x : α) (hlen : l.length = c)
    (hlt : v.size_ < c) (htake : l.take v.size_ = v.content) :
    (SimpleVector.mk ⟨some (l.set v.size_ x)⟩ c (v.size_ + 1)).Inv ∧
    (SimpleVector.mk ⟨some (l.set v.size_ x)⟩ c (v.size_ + 1)).content = v.content ++ [x] := by
  refine ⟨Inv_of_some _ _ _ (by simp [hlen]) (by omega) (by omega), ?_⟩
  simp only [SimpleVector.content, ArrayPtr.cells] at htake ⊢
  rw [← htake]
  apply List.ext_getElem?
  intro i
  simp only [List.getElem?_take, List.getElem?_append, List.getElem?_set, List.length_take,
    List.getElem?_cons]
  have hmin : min v.size_ l.length = v.size_ := by omega
  rw [hmin]
  by_cases h1 : i < v.size_
  · rw [if_pos (by omega), if_neg (by omega), if_pos h1, if_pos h1]
  · by_cases h2 : i = v.size_
    · subst h2
      rw [if_pos (by omega), if_pos rfl, if_pos (by omega), if_neg h1, if_pos (by omega)]
    · rw [if_neg (by omega), if_neg h1, if_neg (by omega)]
      simp

/-- On a state satisfying the invariant `PushBack` is the read of its parameter from the
grown buffer `l`, followed by the write at slot `size_`. -/
theorem PushBack_eq [Inhabited α] {v : SimpleVector α} (h : v.Inv) (fresh : Nat → α)
    (a : Arg α) :
    ∃ l, l.length = grownCapacity v ∧ v.size_ < grownCapacity v ∧
      l.take v.size_ = v.content ∧
      (v.growStep_releases = false → v.array_ptr_ = ⟨some l⟩) ∧
      v.PushBack fresh a = (a.read ⟨some l⟩ v.growStep_releases).map fun x =>
        ⟨⟨some (l.set v.size_ x)⟩, grownCapacity v, v.size_ + 1⟩ := by
  obtain ⟨l, hg, hlen, hlt, _, htake⟩ := growStep_spec h fresh
  refine ⟨l, hlen, hlt, htake, ?_, ?_⟩
  · intro hrel
    rw [growStep_keeps fresh hrel] at hg
    rw [Option.some.inj hg]
  · simp only [SimpleVector.PushBack, hg, Option.some_bind]
    cases a.read ⟨some l⟩ v.growStep_releases with
    | none => rfl
    | some x => simp [ArrayPtr.assign_some l v.size_ x (by omega)]

/-- What `PushBack` of a value held outside the buffer does on a state satisfying the
invariant. -/
theorem PushBack_full [Inhabited α] {v : SimpleVector α} (h : v.Inv) (fresh : Nat → α)
    (x : α) :
    ∃ w, v.PushBack fresh (Arg.external x) = some w ∧ w.Inv ∧ w.size_ = v.size_ + 1 ∧
      w.capacity_ = grownCapacity v ∧ w.content = v.content ++ [x] := by
  obtain ⟨l, hlen, hlt, htake, _, heq⟩ := PushBack_eq h fresh (Arg.external x)
  have hok := pushed_ok l (grownCapacity v) x hlen hlt htake
  exact ⟨_, by rw [heq]; rfl, hok.1, rfl, rfl, hok.2⟩

/-- Every result of `PushBack` on a state satisfying the invariant satisfies it. -/
theorem PushBack_Inv [Inhabited α] {v w : SimpleVector α} (h : v.Inv) (fresh : Nat → α)
    (a : Arg α) (hw : v.PushBack fresh a = some w) : w.Inv := by
  obtain ⟨l, hlen, hlt, htake, _, heq⟩ := PushBack_eq h fresh a
  rw [heq, Option.map_eq_some'] at hw
  obtain ⟨x, _, hx⟩ := hw
  rw [← hx]
  exact (pushed_ok l (grownCapacity v) x hlen hlt htake).1

/-- The state after the shift of the cells from `p` on and the write of `x` at `p`. -/
theorem inserted_ok {v : SimpleVector α} (l r : List α) (c p : Nat) (x : α)
    (hlen : l.length = c) (hlt : v.size_ < c) (htake : l.take v.size_ = v.content)
    (hp : p ≤ v.size_) (hrlen : r.length = l.length)
    (hget : ∀ i, r[i]? = if v.size_ + 1 - (v.size_ - p) ≤ i ∧ i < v.size_ + 1
      then l[i - (v.size_ + 1 - v.size_)]? else l[i]?) :
    (SimpleVector.mk ⟨some (r.set p x)⟩ c (v.size_ + 1)).Inv ∧
    (SimpleVector.mk ⟨some (r.set p x)⟩ c (v.size_ + 1)).content =
      v.content.take p ++ x :: v.content.drop p := by
  refine ⟨Inv_of_some _ _ _ (by simp [hrlen, hlen]) (by omega) (by omega), ?_⟩
  simp only [SimpleVector.content, ArrayPtr.cells] at htake ⊢
  rw [← htake]
  apply List.ext_getElem?
  intro i
  simp only [List.getElem?_take, List.getElem?_append, List.getElem?_set, List.length_take,
    List.getElem?_cons, List.getElem?_drop, hget]
  have hmin : min p (min v.size_ l.length) = p := by omega
  rw [hmin]
  by_cases h1 : i < p
  · rw [if_pos (by omega), if_neg (by omega), if_neg (by omega), if_pos h1, if_pos h1,
      if_pos (by omega)]
  · by_cases h2 : i = p
    · subst h2
      rw [if_pos (by omega), if_pos rfl, if_pos (by omega), if_neg h1, if_pos (by omega)]
    · by_cases h3 : i < v.size_ + 1
      · rw [if_pos h3, if_neg (by omega), if_pos (by omega), if_neg h1, if_neg (by omega),
          if_pos (by omega)]
        congr 1
        omega
      · rw [if_neg h3, if_neg h1, if_neg (by omega), if_neg (by omega)]

/-- On a state satisfying the invariant `Insert` at `p ≤ size_` is the shift of the grown
buffer `l` into `r`, the read of its parameter from `r`, and the write at slot `p`. -/
theorem Insert_eq [Inhabited α] {v : SimpleVector α} (h : v.Inv) (fresh : Nat → α) (p : Nat)
    (hp : p ≤ v.size_) (a : Arg α) :
    ∃ l r, l.length = grownCapacity v ∧ v.size_ < grownCapacity v ∧
      l.take v.size_ = v.content ∧
      (v.growStep_releases = false → v.array_ptr_ = ⟨some l⟩) ∧
      r.length = l.length ∧
      (∀ i, r[i]? = if v.size_ + 1 - (v.size_ - p) ≤ i ∧ i < v.size_ + 1
        then l[i - (v.size_ + 1 - v.size_)]? else l[i]?) ∧
      v.Insert fresh p a = (a.read ⟨some r⟩ v.growStep_releases).map fun x =>
        (⟨⟨some (r.set p x)⟩, grownCapacity v, v.size_ + 1⟩, p) := by
  obtain ⟨l, hg, hlen, hlt, _, htake⟩ := growStep_spec h fresh
  obtain ⟨r, hr, hrlen, hget⟩ := moveBackwardLoop_spec (v.size_ - p) v.size_ (v.size_ + 1) l
    (by omega) (by omega) (by omega)
  refine ⟨l, r, hlen, hlt, htake, ?_, hrlen, hget, ?_⟩
  · intro hrel
    rw [growStep_keeps fresh hrel] at hg
    rw [Option.some.inj hg]
  · simp only [SimpleVector.Insert, hg, Option.some_bind, SimpleVector.begin,
      SimpleVector.end_, std_move_backward, Nat.sub_zero, Nat.zero_add, hp, if_true, hr]
    cases a.read ⟨some r⟩ v.growStep_releases with
    | none => rfl
    | some x => simp [ArrayPtr.assign_some r p x (by omega)]

/-- What `Insert` of a value held outside the buffer does on a state satisfying the
invariant, for a position up to `end()`. -/
theorem Insert_full [Inhabited α] {v : SimpleVector α} (h : v.Inv) (fresh : Nat → α)
    (p : Nat) (x : α) (hp : p ≤ v.size_) :
    ∃ w, v.Insert fresh p (Arg.external x) = some (w, p) ∧ w.Inv ∧ w.size_ = v.size_ + 1 ∧
      w.capacity_ = grownCapacity v ∧
      w.content = v.content.take p ++ x :: v.content.drop p := by
  obtain ⟨l, r, hlen, hlt, htake, _, hrlen, hget, heq⟩ :=
    Insert_eq h fresh p hp (Arg.external x)
  have hok := inserted_ok l r (grownCapacity v) p x hlen hlt htake hp hrlen hget
  exact ⟨_, by rw [heq]; rfl, hok.1, rfl, rfl, hok.2⟩

/-- Every result of `Insert` at `p ≤ size_` on a state satisfying the invariant satisfies
it, and differs from the start by one element written at `p`. -/
theorem Insert_some [Inhabited α] {v w : SimpleVector α} {q : Nat} (h : v.Inv)
    (fresh : Nat → α) (p : Nat) (hp : p ≤ v.size_) (a : Arg α)
    (hw : v.Insert fresh p a = some (w, q)) :
    q = p ∧ w.Inv ∧ w.size_ = v.size_ + 1 ∧ w.capacity_ = grownCapacity v ∧
      ∃ y, w.content = v.content.take p ++ y :: v.content.drop p := by
  obtain ⟨l, r, hlen, hlt, htake, _, hrlen, hget, heq⟩ := Insert_eq h fresh p hp a
  rw [heq, Option.map_eq_some'] at hw
  obtain ⟨x, _, hx⟩ := hw
  have hwx := (Prod.mk.inj hx).1
  have hqx := (Prod.mk.inj hx).2
  have hok := inserted_ok l r (grownCapacity v) p x hlen hlt htake hp hrlen hget
  rw [← hwx]
  exact ⟨hqx.symm, hok.1, rfl, rfl, x, hok.2⟩

/-- What `Erase` does on a state satisfying the invariant, for a position before `end()`. -/
theorem Erase_full {v : SimpleVector α} (h : v.Inv) (p : Nat) (hp : p < v.size_) :
    ∃ w, v.Erase p = some (w, p) ∧ w.Inv ∧ w.size_ = v.size_ - 1 ∧
      w.capacity_ = v.capacity_ ∧ w.content = v.content.eraseIdx p := by
  rcases Inv_shape h with ⟨_, _, hs⟩ | ⟨l, hl, hll, hc, hs⟩
  · omega
  · obtain ⟨r, hr, hrlen, hget⟩ := moveWithinLoop_spec (v.size_ - (p + 1)) (p + 1) p l
      (by omega) (by omega)
    refine ⟨⟨⟨some r⟩, v.capacity_, v.size_ - 1⟩, ?_, ?_, rfl, rfl, ?_⟩
    · have hpos : 0 < v.size_ := by omega
      simp [SimpleVector.Erase, SimpleVector.begin, SimpleVector.end_, std_move_within, hl,
        Nat.succ_le_of_lt hp, hr, SimpleVector.PopBack, hpos]
    · exact Inv_of_some _ _ _ (by omega) hc (by omega)
    · simp only [SimpleVector.content, ArrayPtr.cells, hl]
      apply List.ext_getElem?
      intro i
      simp only [List.getElem?_take, List.getElem?_eraseIdx, hget]
      by_cases h1 : i < p
      · rw [if_pos (by omega), if_neg (by omega), if_pos h1, if_pos (by omega)]
      · by_cases h2 : i < v.size_ - 1
        · rw [if_pos h2, if_pos (by omega), if_neg h1, if_pos (by omega)]
          congr 1
          omega
        · rw [if_neg h2, if_neg h1, if_neg (by omega)]

/-! ## Resize -/

/-- What `Resize` does on a state satisfying the invariant. -/
theorem Resize_full [Inhabited α] {v : SimpleVector α} (h : v.Inv) (fresh : Nat → α)
    (k : Nat) :
    ∃ w, v.Resize fresh k = some w ∧ w.Inv ∧
      w.size_ = (if k < v.capacity_ then k else max k (v.capacity_ * 2)) ∧
      w.capacity_ = (if k < v.capacity_ then v.capacity_ else max k (v.capacity_ * 2)) ∧
      (∀ i, i < v.size_ → i < k → w.index i = v.index i) ∧
      (∀ i, v.size_ ≤ i → i < k → w.index i = some default) := by
  by_cases hk : k < v.capacity_
  · rcases Inv_shape h with ⟨_, hc, _⟩ | ⟨l, hl, hll, hc, hs⟩
    · omega
    · by_cases hgt : k > v.size_
      · obtain ⟨r, hr, hrlen, hget⟩ := fillLoop_spec (default : α) (k + 1 - v.size_) v.size_ l
          (by omega)
        refine ⟨⟨⟨some r⟩, v.capacity_, k⟩, ?_, ?_, ?_, ?_, ?_, ?_⟩
        · have hle : v.size_ ≤ k + 1 := by omega
          simp [SimpleVector.Resize, SimpleVector.GetCapacity, SimpleVector.GetSize,
            SimpleVector.begin, hk, hgt, fill, hle, hl, hr]
        · exact Inv_of_some _ _ _ (by omega) hc (by omega)
        · simp [hk]
        · simp [hk]
        · intro i hi _
          simp only [SimpleVector.index, hl, ArrayPtr.index_some, hget]
          rw [if_neg (by omega)]
        · intro i hi hik
          simp only [SimpleVector.index, ArrayPtr.index_some, hget]
          rw [if_pos (by omega)]
      · refine ⟨{ v with size_ := k }, ?_, ?_, ?_, ?_, ?_, ?_⟩
        · simp [SimpleVector.Resize, SimpleVector.GetCapacity, hk, hgt]
        · rw [hl]
          exact Inv_of_some _ _ _ hll hc (by omega)
        · simp [hk]
        · simp [hk]
        · intro i _ _
          rfl
        · intro i hi hik
          omega
  · have hm : v.size_ ≤ max k (v.capacity_ * 2) := by
      have := h.1
      omega
    have hlen := content_length h
    refine ⟨⟨relocated v (max k (v.capacity_ * 2)), max k (v.capacity_ * 2),
      max k (v.capacity_ * 2)⟩, ?_, ?_, ?_, ?_, ?_, ?_⟩
    · simp [SimpleVector.Resize, SimpleVector.GetCapacity, hk, ctor_size_eq, SimpleVector.begin,
        SimpleVector.end_, std_move_relocate h _ hm, SimpleVector.swap, ArrayPtr.swap]
    · exact Inv_relocated h _ _ hm (Nat.le_refl _)
    · simp [hk]
    · simp [hk]
    · intro i hi hik
      have hne : ¬ (max k (v.capacity_ * 2) = 0) := by omega
      rw [index_eq_content h hi]
      simp only [SimpleVector.index, relocated, hne, if_false, ArrayPtr.index_some]
      rw [List.getElem?_append_left (by omega)]
    · intro i hi hik
      have hne : ¬ (max k (v.capacity_ * 2) = 0) := by omega
      simp only [SimpleVector.index, relocated, hne, if_false, ArrayPtr.index_some]
      rw [List.getElem?_append_right (by omega), List.getElem?_replicate, if_pos (by omega)]

/-! ## Reserve, copies, moves, and the size-only members -/

theorem cells_relocated [Inhabited α] (v : SimpleVector α) (m : Nat) (h0 : m ≠ 0) :
    (relocated v m).cells = v.content ++ List.replicate (m - v.size_) default := by
  simp [relocated, h0, ArrayPtr.cells]

/-- Relocation keeps the live content. -/
theorem content_relocated [Inhabited α] {v : SimpleVector α} (h : v.Inv) (m c : Nat)
    (hm : v.size_ ≤ m) :
    (SimpleVector.mk (relocated v m) c v.size_).content = v.content := by
  have hlen := content_length h
  by_cases h0 : m = 0
  · have hs : v.size_ = 0 := by omega
    have hnil : v.content = [] := List.eq_nil_of_length_eq_zero (by omega)
    rw [hnil]
    show List.take v.size_ _ = []
    rw [hs, List.take_zero]
  · show List.take v.size_ (relocated v m).cells = v.content
    rw [cells_relocated v m h0]
    generalize v.content = c at hlen ⊢
    rw [← hlen, List.take_left]

/-- What `Reserve` does on a state satisfying the invariant. -/
theorem Reserve_full [Inhabited α] {v : SimpleVector α} (h : v.Inv) (fresh : Nat → α)
    (n : Nat) :
    ∃ w, v.Reserve fresh n = some w ∧ w.Inv ∧ w.size_ = v.size_ ∧
      w.capacity_ = (if n ≤ v.capacity_ then v.capacity_ else n) ∧ w.content = v.content := by
  by_cases hn : n ≤ v.capacity_
  · exact ⟨v, by simp [SimpleVector.Reserve, hn], h, rfl, by simp [hn], rfl⟩
  · have hs : v.size_ ≤ n := by
      have := h.1
      omega
    have hn0 : ¬ (n = 0) := by omega
    refine ⟨⟨relocated v n, n, v.size_⟩, ?_, Inv_relocated h _ _ hs hs, rfl, by simp [hn], ?_⟩
    · simp [SimpleVector.Reserve, hn, ResizeCapacity_eq h fresh n hs]
    · exact content_relocated h n n hs

/-- What the copy constructor builds from a state satisfying the invariant. -/
theorem ctor_copy_full [Inhabited α] {o : SimpleVector α} (h : o.Inv) (fresh : Nat → α) :
    ∃ w, SimpleVector.ctor_copy fresh o = some w ∧ w.Inv ∧ w.size_ = o.size_ ∧
      w.capacity_ = o.size_ ∧ w.content = o.content := by
  have hmv := std_move_exact fresh o.array_ptr_.index o.content o.size_ (content_length h)
    (fun _ hi => index_eq_content h hi)
  have hrel : relocated o o.size_ = if o.size_ = 0 then ⟨none⟩ else ⟨some o.content⟩ := by
    by_cases h0 : o.size_ = 0 <;> simp [relocated, h0]
  refine ⟨⟨relocated o o.size_, o.size_, o.size_⟩, ?_, Inv_relocated h _ _ (Nat.le_refl _)
    (Nat.le_refl _), rfl, rfl, ?_⟩
  · simp [SimpleVector.ctor_copy, SimpleVector.GetSize, SimpleVector.begin, SimpleVector.end_,
      hmv, hrel]
  · exact content_relocated h o.size_ o.size_ (Nat.le_refl _)

theorem Inv_Clear {v : SimpleVector α} (h : v.Inv) : v.Clear.Inv :=
  ⟨Nat.zero_le _, h.2.1, h.2.2⟩

theorem Inv_PopBack {v : SimpleVector α} (h : v.Inv) : v.PopBack.Inv := by
  unfold SimpleVector.PopBack
  split
  · exact ⟨Nat.le_trans (Nat.sub_le _ _) h.1, h.2.1, h.2.2⟩
  · exact h

theorem Inv_swap {a b : SimpleVector α} (ha : a.Inv) (hb : b.Inv) :
    (a.swap b).1.Inv ∧ (a.swap b).2.Inv := by
  rcases a with ⟨⟨pa⟩, ca, sa⟩
  rcases b with ⟨⟨pb⟩, cb, sb⟩
  exact ⟨hb, ha⟩

theorem Inv_moved {o : SimpleVector α} (h : o.Inv) :
    (SimpleVector.ctor_move o).1.Inv ∧ (SimpleVector.ctor_move o).2.Inv := by
  rcases o with ⟨⟨po⟩, co, so⟩
  exact ⟨h, Inv_of_null α⟩

/-- Every reachable state satisfies the representation invariant. -/
theorem Reachable_Inv [Inhabited α] {v : SimpleVector α} (hr : Reachable v) : v.Inv := by
  induction hr with
  | ctor => exact Inv_of_null α
  | ctor_size fresh n v h =>
    rw [ctor_size_eq] at h
    cases h
    exact Inv_filled n n default (Nat.le_refl _)
  | ctor_size_value fresh n x v h =>
    rw [ctor_size_value_eq] at h
    cases h
    exact Inv_filled n n x (Nat.le_refl _)
  | ctor_list fresh init v h =>
    rw [ctor_list_eq] at h
    cases h
    by_cases h0 : init.length = 0
    · simpa [h0] using Inv_of_null α
    · simpa [h0] using Inv_of_some init init.length init.length rfl (by omega) (Nat.le_refl _)
  | ctor_reserve fresh n v h =>
    simp only [SimpleVector.ctor_reserve, SV.Reserve, ctor_size_eq, Option.map_some] at h
    cases h
    exact Inv_filled n 0 default (Nat.zero_le _)
  | ctor_copy fresh o v _ h ih =>
    obtain ⟨w, hw, hinv, _⟩ := ctor_copy_full ih fresh
    rw [hw] at h
    cases h
    exact hinv
  | ctor_move_this o _ ih => exact (Inv_moved ih).1
  | ctor_move_other o _ ih => exact (Inv_moved ih).2
  | Clear v _ ih => exact Inv_Clear ih
  | Resize fresh v k w _ h ih =>
    obtain ⟨u, hu, hinv, _⟩ := Resize_full ih fresh k
    rw [hu] at h
    cases h
    exact hinv
  | PushBack fresh v x w _ h ih => exact PushBack_Inv ih fresh x h
  | Insert fresh v p x w q _ hp h ih => exact (Insert_some ih fresh p hp x h).2.1
  | PopBack v _ ih => exact Inv_PopBack ih
  | Erase v p w q _ hp h ih =>
    obtain ⟨u, hu, hinv, _⟩ := Erase_full ih p hp
    rw [hu] at h
    cases h
    exact hinv
  | Reserve fresh v n w _ h ih =>
    obtain ⟨u, hu, hinv, _⟩ := Reserve_full ih fresh n
    rw [hu] at h
    cases h
    exact hinv
  | swap_this a b _ _ iha ihb => exact (Inv_swap iha ihb).1
  | swap_other a b _ _ iha ihb => exact (Inv_swap iha ihb).2
  | assign_copy_this fresh a b r _ _ h iha ihb =>
    obtain ⟨u, hu, hinv, _⟩ := ctor_copy_full ihb fresh
    simp only [SimpleVector.assign_copy, hu, Option.map_some] at h
    cases h
    exact (Inv_swap iha hinv).1
  | assign_copy_rhs fresh a b r _ _ h _ ihb =>
    obtain ⟨u, hu, hinv, _⟩ := ctor_copy_full ihb fresh
    simp only [SimpleVector.assign_copy, hu, Option.map_some] at h
    cases h
    exact ihb
  | assign_copy_self a _ ih => exact ih
  | assign_move_this a b _ _ _ ihb => exact (Inv_moved ihb).1
  | assign_move_other a b _ _ _ ihb => exact (Inv_moved ihb).2
  | assign_move_self a _ ih => exact ih

/-! ## Repeated PushBack -/

theorem le_grownCapacity (v : SimpleVector α) : v.capacity_ ≤ grownCapacity v := by
  unfold grownCapacity
  split_ifs <;> omega

theorem OnDoublingPath_step (v : SimpleVector α) (hd : OnDoublingPath v.size_ v.capacity_) :
    OnDoublingPath (v.size_ + 1) (grownCapacity v) := by
  rcases hd with ⟨hs, hc⟩ | ⟨k, hc, hpos, hle, hlow⟩
  · right
    exact ⟨0, by simp [grownCapacity, hc], by omega, by simp [hs], Or.inl rfl⟩
  · have hk : 0 < 2 ^ k := Nat.pos_pow_of_pos k (by decide)
    right
    by_cases hfull : v.size_ = v.capacity_
    · refine ⟨k + 1, ?_, by omega, ?_, Or.inr ?_⟩
      · have hc0 : v.capacity_ ≠ 0 := by omega
        unfold grownCapacity
        rw [if_neg hc0, if_pos hfull, hc, Nat.pow_succ]
      · rw [Nat.pow_succ]
        omega
      · rw [Nat.add_sub_cancel]
        omega
    · refine ⟨k, ?_, by omega, by omega, ?_⟩
      · have hc0 : v.capacity_ ≠ 0 := by omega
        unfold grownCapacity
        rw [if_neg hc0, if_neg hfull, hc]
      · rcases hlow with h0 | hlt
        · exact Or.inl h0
        · exact Or.inr (by omega)

theorem OnDoublingPath_least {s c : Nat} (hd : OnDoublingPath s c) (hs : 0 < s) :
    ∃ k, c = 2 ^ k ∧ s ≤ 2 ^ k ∧ ∀ j, s ≤ 2 ^ j → k ≤ j := by
  rcases hd with ⟨h0, _⟩ | ⟨k, hc, _, hle, hlow⟩
  · omega
  · refine ⟨k, hc, hle, fun j hj => ?_⟩
    rcases hlow with h0 | hlt
    · omega
    · by_contra hcon
      have hjk : j ≤ k - 1 := by omega
      have := Nat.pow_le_pow_right (show 0 < 2 by decide) hjk
      omega

theorem PushBackAll_append [Inhabited α] (xs ys : List α) :
    ∀ (fresh : Nat → Nat → α) (v : SimpleVector α),
      PushBackAll fresh v (xs ++ ys) =
        (PushBackAll fresh v xs).bind fun w =>
          PushBackAll (fun k => fresh (k + xs.length)) w ys := by
  induction xs with
  | nil =>
    intro fresh v
    rfl
  | cons x xs ih =>
    intro fresh v
    simp only [List.cons_append, PushBackAll]
    cases v.PushBack (fresh 0) (Arg.external x) with
    | none => rfl
    | some u => exact ih (fun k => fresh (k + 1)) u

/-- What a run of `PushBack` calls does on a state satisfying the invariant. -/
theorem PushBackAll_full [Inhabited α] (xs : List α) :
    ∀ (fresh : Nat → Nat → α) {v : SimpleVector α}, v.Inv →
    ∃ w, PushBackAll fresh v xs = some w ∧ w.Inv ∧ w.size_ = v.size_ + xs.length ∧
      w.content = v.content ++ xs ∧ v.capacity_ ≤ w.capacity_ ∧
      (OnDoublingPath v.size_ v.capacity_ → OnDoublingPath w.size_ w.capacity_) := by
  induction xs with
  | nil =>
    intro fresh v h
    exact ⟨v, rfl, h, rfl, by simp, Nat.le_refl _, id⟩
  | cons x xs ih =>
    intro fresh v h
    obtain ⟨u, hu, huinv, husize, hucap, hucont⟩ := PushBack_full h (fresh 0) x
    obtain ⟨w, hw, hwinv, hwsize, hwcont, hwcap, hwpath⟩ := ih (fun k => fresh (k + 1)) huinv
    refine ⟨w, ?_, hwinv, ?_, ?_, ?_, ?_⟩
    · simp [PushBackAll, hu, hw]
    · rw [hwsize, husize, List.length_cons]
      omega
    · rw [hwcont, hucont]
      simp
    · have := le_grownCapacity v
      omega
    · intro hd
      apply hwpath
      rw [husize, hucap]
      exact OnDoublingPath_step v hd

/-- Erasing at `p` what was inserted at `p` gives the list back. -/
theorem eraseIdx_inserted (c : List α) (p : Nat) (x : α) (hp : p ≤ c.length) :
    (c.take p ++ x :: c.drop p).eraseIdx p = c := by
  have hlen : (c.take p).length = p := List.length_take_of_le hp
  rw [List.eraseIdx_append_of_length_le (by omega), hlen, Nat.sub_self, List.eraseIdx_cons_zero,
    List.take_append_drop]

/-! ## Pushes into reserved storage, constructors, Insert at the end -/

/-- While the pushed values fit into the spare capacity, a run of `PushBack` calls keeps the
capacity. -/
theorem PushBackAll_within [Inhabited α] (xs : List α) :
    ∀ (fresh : Nat → Nat → α) {v : SimpleVector α}, v.Inv →
    v.size_ + xs.length ≤ v.capacity_ →
    ∃ w, PushBackAll fresh v xs = some w ∧ w.size_ = v.size_ + xs.length ∧
      w.content = v.content ++ xs ∧ w.capacity_ = v.capacity_ := by
  induction xs with
  | nil =>
    intro fresh v _ _
    exact ⟨v, rfl, rfl, by simp, rfl⟩
  | cons x xs ih =>
    intro fresh v h hfit
    rw [List.length_cons] at hfit
    obtain ⟨u, hu, huinv, husize, hucap, hucont⟩ := PushBack_full h (fresh 0) x
    have hkeep : grownCapacity v = v.capacity_ := by
      unfold grownCapacity
      rw [if_neg (by omega), if_neg (by omega)]
    obtain ⟨w, hw, hwsize, hwcont, hwcap⟩ := ih (fun k => fresh (k + 1)) huinv (by omega)
    refine ⟨w, ?_, ?_, ?_, ?_⟩
    · simp [PushBackAll, hu, hw]
    · rw [hwsize, husize, List.length_cons]
      omega
    · rw [hwcont, hucont]
      simp
    · rw [hwcap, hucap, hkeep]

theorem index_filled (n c s i : Nat) (x : α) (hi : i < n) :
    (SimpleVector.mk (filled n x) c s).index i = some x := by
  have hn : n ≠ 0 := by omega
  simp [SimpleVector.index, filled, hn, ArrayPtr.index, List.getElem?_replicate, hi]

theorem growStep_size [Inhabited α] {v g : SimpleVector α} {fresh : Nat → α}
    (hg : v.growStep fresh = some g) : g.size_ = v.size_ := by
  have hrc : ∀ m, v.ResizeCapacity fresh m = some g → g.size_ = v.size_ := by
    intro m hm
    simp only [SimpleVector.ResizeCapacity, Option.bind_eq_some, Option.map_eq_some'] at hm
    obtain ⟨_, _, _, _, hq⟩ := hm
    rw [← hq]
  unfold SimpleVector.growStep at hg
  split at hg
  · exact hrc _ hg
  · split at hg
    · exact hrc _ hg
    · rw [← Option.some.inj hg]

/-- `Insert` at `end()` runs the steps of `PushBack`, with the same read of the parameter,
and returns the old size as offset. -/
theorem Insert_end_eq [Inhabited α] (v : SimpleVector α) (fresh : Nat → α) (a : Arg α) :
    v.Insert fresh v.end_ a = (v.PushBack fresh a).map fun w => (w, v.size_) := by
  unfold SimpleVector.Insert SimpleVector.PushBack
  cases hg : v.growStep fresh with
  | none => rfl
  | some g =>
    have hsz := growStep_size hg
    simp only [Option.some_bind, SimpleVector.end_, SimpleVector.begin, Nat.sub_zero,
      Nat.zero_add, std_move_backward, hsz, Nat.le_refl, if_true, Nat.sub_self,
      moveBackwardLoop]
    cases a.read g.array_ptr_ v.growStep_releases with
    | none => rfl
    | some x =>
      simp only [Option.some_bind]
      cases g.array_ptr_.assign v.size_ x <;> rfl

/-! ## Equality of sequences -/

/-- The loop of `std::equal` over two ranges that hold the lists `xs` and `ys` of one
length computes `seqEqual`. -/
theorem equalLoop_list (eq : α → α → Bool) (read1 read2 : Nat → Option α) (xs : List α) :
    ∀ (ys : List α) (f1 f2 : Nat), xs.length = ys.length →
      (∀ k, k < xs.length → read1 (f1 + k) = xs[k]?) →
      (∀ k, k < ys.length → read2 (f2 + k) = ys[k]?) →
      equalLoop eq read1 read2 f1 f2 xs.length = some (seqEqual eq xs ys) := by
  induction xs with
  | nil =>
    intro ys f1 f2 hlen _ _
    cases ys with
    | nil => rfl
    | cons y ys => simp at hlen
  | cons x xs ih =>
    intro ys f1 f2 hlen h1 h2
    cases ys with
    | nil => simp at hlen
    | cons y ys =>
      have hx : read1 f1 = some x := by simpa using h1 0 (by simp)
      have hy : read2 f2 = some y := by simpa using h2 0 (by simp)
      have hrec := ih ys (f1 + 1) (f2 + 1) (by simpa using hlen)
        (fun k hk => by
          have := h1 (k + 1) (by simpa using hk)
          rw [show f1 + (k + 1) = f1 + 1 + k by omega] at this
          simpa using this)
        (fun k hk => by
          have := h2 (k + 1) (by simpa using hk)
          rw [show f2 + (k + 1) = f2 + 1 + k by omega] at this
          simpa using this)
      rw [List.length_cons, equalLoop, hx, hy, Option.some_bind, Option.some_bind, hrec]
      cases hxy : eq x y <;> simp [seqEqual, hxy]

/-- Position by position reading of `seqEqual`. -/
theorem seqEqual_iff (eq : α → α → Bool) (xs : List α) : ∀ ys : List α,
    seqEqual eq xs ys = true ↔
      xs.length = ys.length ∧
      ∀ i, i < xs.length → ∃ x y, xs[i]? = some x ∧ ys[i]? = some y ∧ eq x y = true := by
  induction xs with
  | nil =>
    intro ys
    cases ys with
    | nil => simp [seqEqual]
    | cons y ys => simp [seqEqual]
  | cons x xs ih =>
    intro ys
    cases ys with
    | nil => simp [seqEqual]
    | cons y ys =>
      simp only [seqEqual, Bool.and_eq_true, ih ys, List.length_cons]
      constructor
      · rintro ⟨hxy, hlen, hall⟩
        refine ⟨by omega, fun i hi => ?_⟩
        cases i with
        | zero => exact ⟨x, y, by simp, by simp, hxy⟩
        | succ i =>
          obtain ⟨u, v, hu, hv, huv⟩ := hall i (by omega)
          exact ⟨u, v, by simpa using hu, by simpa using hv, huv⟩
      · rintro ⟨hlen, hall⟩
        refine ⟨?_, by omega, fun i hi => ?_⟩
        · obtain ⟨u, v, hu, hv, huv⟩ := hall 0 (by omega)
          simp at hu hv
          rw [hu, hv]
          exact huv
        · obtain ⟨u, v, hu, hv, huv⟩ := hall (i + 1) (by omega)
          exact ⟨u, v, by simpa using hu, by simpa using hv, huv⟩

theorem seqEqual_refl (eq : α → α → Bool) (hrefl : ∀ x, eq x x = true) (xs : List α) :
    seqEqual eq xs xs = true := by
  induction xs with
  | nil => rfl
  | cons x xs ih => simp [seqEqual, hrefl, ih]

theorem seqEqual_symm (eq : α → α → Bool) (hsymm : ∀ x y, eq x y = true → eq y x = true)
    (xs : List α) : ∀ ys : List α, seqEqual eq xs ys = true → seqEqual eq ys xs = true := by
  induction xs with
  | nil =>
    intro ys h
    cases ys with
    | nil => rfl
    | cons y ys => simp [seqEqual] at h
  | cons x xs ih =>
    intro ys h
    cases ys with
    | nil => simp [seqEqual] at h
    | cons y ys =>
      simp only [seqEqual, Bool.and_eq_true] at h ⊢
      exact ⟨hsymm x y h.1, ih ys h.2⟩

theorem seqEqual_trans (eq : α → α → Bool)
    (htrans : ∀ x y z, eq x y = true → eq y z = true → eq x z = true) (xs : List α) :
    ∀ ys zs : List α, seqEqual eq xs ys = true → seqEqual eq ys zs = true →
      seqEqual eq xs zs = true := by
  induction xs with
  | nil =>
    intro ys zs h1 h2
    cases ys with
    | nil => exact h2
    | cons y ys => simp [seqEqual] at h1
  | cons x xs ih =>
    intro ys zs h1 h2
    cases ys with
    | nil => simp [seqEqual] at h1
    | cons y ys =>
      cases zs with
      | nil => simp [seqEqual] at h2
      | cons z zs =>
        simp only [seqEqual, Bool.and_eq_true] at h1 h2 ⊢
        exact ⟨htrans x y z h1.1 h2.1, ih ys zs h1.2 h2.2⟩

/-- On states satisfying the invariant `operator==` returns, with `seqEqual` of the two
contents. -/
theorem operator_eq_content (eq : α → α → Bool) {a b : SimpleVector α} (ha : a.Inv)
    (hb : b.Inv) : operator_eq eq a b = some (seqEqual eq a.content b.content) := by
  have hla := content_length ha
  have hlb := content_length hb
  by_cases hsz : a.size_ = b.size_
  · have hloop := equalLoop_list eq a.array_ptr_.index b.array_ptr_.index a.content b.content
      0 0 (by omega)
      (fun k hk => by rw [Nat.zero_add]; exact index_eq_content ha (by omega))
      (fun k hk => by rw [Nat.zero_add]; exact index_eq_content hb (by omega))
    rw [hla] at hloop
    simp [operator_eq, SimpleVector.GetSize, hsz, std_equal, SimpleVector.begin,
      SimpleVector.end_, ← hloop]
  · have hne : seqEqual eq a.content b.content = false := by
      cases hse : seqEqual eq a.content b.content with
      | false => rfl
      | true =>
        have := ((seqEqual_iff eq a.content b.content).mp hse).1
        omega
    simp [operator_eq, SimpleVector.GetSize, hsz, hne]

/-! ## The lexicographic order of sequences -/

/-- The loop of `std::lexicographical_compare` over two ranges that hold the lists `xs` and
`ys` computes `lexLess`. -/
theorem lexLoop_list (lt : α → α → Bool) (read1 read2 : Nat → Option α) (xs : List α) :
    ∀ (ys : List α) (f1 f2 : Nat),
      (∀ k, k < xs.length → read1 (f1 + k) = xs[k]?) →
      (∀ k, k < ys.length → read2 (f2 + k) = ys[k]?) →
      lexLoop lt read1 read2 f1 f2 xs.length ys.length = some (lexLess lt xs ys) := by
  induction xs with
  | nil =>
    intro ys f1 f2 _ _
    cases ys with
    | nil => rfl
    | cons y ys => rfl
  | cons x xs ih =>
    intro ys f1 f2 h1 h2
    cases ys with
    | nil => rfl
    | cons y ys =>
      have hx : read1 f1 = some x := by simpa using h1 0 (by simp)
      have hy : read2 f2 = some y := by simpa using h2 0 (by simp)
      have hrec := ih ys (f1 + 1) (f2 + 1)
        (fun k hk => by
          have := h1 (k + 1) (by simpa using hk)
          rw [show f1 + (k + 1) = f1 + 1 + k by omega] at this
          simpa using this)
        (fun k hk => by
          have := h2 (k + 1) (by simpa using hk)
          rw [show f2 + (k + 1) = f2 + 1 + k by omega] at this
          simpa using this)
      rw [List.length_cons, List.length_cons, lexLoop, hx, hy, Option.some_bind,
        Option.some_bind, hrec]
      cases hxy : lt x y <;> cases hyx : lt y x <;> simp [lexLess, hxy, hyx]

/-- On states satisfying the invariant `operator<` returns, with `lexLess` of the two
contents. -/
theorem operator_lt_content (lt : α → α → Bool) {a b : SimpleVector α} (ha : a.Inv)
    (hb : b.Inv) : operator_lt lt a b = some (lexLess lt a.content b.content) := by
  have hla := content_length ha
  have hlb := content_length hb
  have hloop := lexLoop_list lt a.array_ptr_.index b.array_ptr_.index a.content b.content 0 0
    (fun k hk => by rw [Nat.zero_add]; exact index_eq_content ha (by omega))
    (fun k hk => by rw [Nat.zero_add]; exact index_eq_content hb (by omega))
  rw [hla, hlb] at hloop
  simp [operator_lt, std_lexicographical_compare, SimpleVector.begin, SimpleVector.end_, hloop]

theorem lexLess_irrefl (lt : α → α → Bool) (hirr : ∀ x, lt x x = false) (xs : List α) :
    lexLess lt xs xs = false := by
  induction xs with
  | nil => rfl
  | cons x xs ih => simp [lexLess, hirr, ih]

/-- A proper initial part of a sequence is below the sequence. -/
theorem lexLess_initial (lt : α → α → Bool) (hirr : ∀ x, lt x x = false) (xs t : List α)
    (ht : t ≠ []) : lexLess lt xs (xs ++ t) = true := by
  induction xs with
  | nil =>
    cases t with
    | nil => exact absurd rfl ht
    | cons y ys => rfl
  | cons x xs ih => simp [lexLess, hirr, ih]

/-- The first position at which one element is below the other decides. -/
theorem lexLess_first_difference (lt : α → α → Bool) (i : Nat) :
    ∀ (xs ys : List α) (x y : α), xs[i]? = some x → ys[i]? = some y →
      (∀ j, j < i → ∀ u v, xs[j]? = some u → ys[j]? = some v →
        lt u v = false ∧ lt v u = false) →
      (lt x y = true → lexLess lt xs ys = true) ∧
      (lt x y = false → lt y x = true → lexLess lt xs ys = false) := by
  induction i with
  | zero =>
    intro xs ys x y hx hy _
    cases xs with
    | nil => simp at hx
    | cons u xs =>
      cases ys with
      | nil => simp at hy
      | cons v ys =>
        simp at hx hy
        subst hx
        subst hy
        constructor
        · intro h
          simp [lexLess, h]
        · intro h1 h2
          simp [lexLess, h1, h2]
  | succ i ih =>
    intro xs ys x y hx hy hbefore
    cases xs with
    | nil => simp at hx
    | cons u xs =>
      cases ys with
      | nil => simp at hy
      | cons v ys =>
        have h0 := hbefore 0 (by omega) u v (by simp) (by simp)
        have hrec := ih xs ys x y (by simpa using hx) (by simpa using hy)
          (fun j hj p q hp hq => hbefore (j + 1) (by omega) p q (by simpa using hp)
            (by simpa using hq))
        simpa [lexLess, h0.1, h0.2] using hrec

/-- In a strict weak order, an element below `y` is below everything equivalent to `y`. -/
theorem swo_lt_of_lt_of_equiv (lt : α → α → Bool)
    (htrans : ∀ x y z, lt x y = true → lt y z = true → lt x z = true)
    (hinc : ∀ x y z, lt x y = false → lt y x = false → lt y z = false → lt z y = false →
      lt x z = false ∧ lt z x = false)
    {x y z : α} (hxy : lt x y = true) (hyz : lt y z = false) (hzy : lt z y = false) :
    lt x z = true := by
  cases hxz : lt x z with
  | true => rfl
  | false =>
    cases hzx : lt z x with
    | true =>
      have := htrans z x y hzx hxy
      rw [hzy] at this
      exact absurd this (by decide)
    | false =>
      have := (hinc x z y hxz hzx hzy hyz).1
      rw [hxy] at this
      exact absurd this (by decide)

/-- In a strict weak order, everything equivalent to `y` is below what `y` is below. -/
theorem swo_lt_of_equiv_of_lt (lt : α → α → Bool)
    (htrans : ∀ x y z, lt x y = true → lt y z = true → lt x z = true)
    (hinc : ∀ x y z, lt x y = false → lt y x = false → lt y z = false → lt z y = false →
      lt x z = false ∧ lt z x = false)
    {x y z : α} (hxy : lt x y = false) (hyx : lt y x = false) (hyz : lt y z = true) :
    lt x z = true := by
  cases hxz : lt x z with
  | true => rfl
  | false =>
    cases hzx : lt z x with
    | true =>
      have := htrans y z x hyz hzx
      rw [hyx] at this
      exact absurd this (by decide)
    | false =>
      have := (hinc y x z hyx hxy hxz hzx).1
      rw [hyz] at this
      exact absurd this (by decide)

theorem lexLess_trans (lt : α → α → Bool)
    (htrans : ∀ x y z, lt x y = true → lt y z = true → lt x z = true)
    (hinc : ∀ x y z, lt x y = false → lt y x = false → lt y z = false → lt z y = false →
      lt x z = false ∧ lt z x = false)
    (xs : List α) : ∀ ys zs : List α, lexLess lt xs ys = true → lexLess lt ys zs = true →
      lexLess lt xs zs = true := by
  induction xs with
  | nil =>
    intro ys zs h1 h2
    cases ys with
    | nil => simp [lexLess] at h1
    | cons y ys =>
      cases zs with
      | nil => simp [lexLess] at h2
      | cons z zs => rfl
  | cons x xs ih =>
    intro ys zs h1 h2
    cases ys with
    | nil => simp [lexLess] at h1
    | cons y ys =>
      cases zs with
      | nil => simp [lexLess] at h2
      | cons z zs =>
        cases hxy : lt x y with
        | true =>
          cases hyz : lt y z with
          | true =>
            simp [lexLess, htrans x y z hxy hyz]
          | false =>
            cases hzy : lt z y with
            | true => simp [lexLess, hyz, hzy] at h2
            | false =>
              simp [lexLess, swo_lt_of_lt_of_equiv lt htrans hinc hxy hyz hzy]
        | false =>
          cases hyx : lt y x with
          | true => simp [lexLess, hxy, hyx] at h1
          | false =>
            simp only [lexLess, hxy, hyx] at h1
            cases hyz : lt y z with
            | true =>
              simp [lexLess, swo_lt_of_equiv_of_lt lt htrans hinc hxy hyx hyz]
            | false =>
              cases hzy : lt z y with
              | true => simp [lexLess, hyz, hzy] at h2
              | false =>
                simp only [lexLess, hyz, hzy] at h2
                have hxz := hinc x y z hxy hyx hyz hzy
                simp only [lexLess, hxz.1, hxz.2]
                exact ih ys zs (by simpa using h1) (by simpa using h2)

/-- Two sequences of which neither is below the other have equivalent heads and tails of
which neither is below the other. -/
theorem lexLess_incomparable_cons (lt : α → α → Bool) {x y : α} {xs ys : List α}
    (h1 : lexLess lt (x :: xs) (y :: ys) = false) (h2 : lexLess lt (y :: ys) (x :: xs) = false) :
    lt x y = false ∧ lt y x = false ∧ lexLess lt xs ys = false ∧ lexLess lt ys xs = false := by
  cases hxy : lt x y with
  | true => simp [lexLess, hxy] at h1
  | false =>
    cases hyx : lt y x with
    | true => simp [lexLess, hyx] at h2
    | false =>
      simp only [lexLess, hxy, hyx] at h1 h2
      exact ⟨rfl, rfl, by simpa using h1, by simpa using h2⟩

theorem lexLess_incomparable_trans (lt : α → α → Bool)
    (hinc : ∀ x y z, lt x y = false → lt y x = false → lt y z = false → lt z y = false →
      lt x z = false ∧ lt z x = false)
    (xs : List α) : ∀ ys zs : List α,
      lexLess lt xs ys = false → lexLess lt ys xs = false →
      lexLess lt ys zs = false → lexLess lt zs ys = false →
      lexLess lt xs zs = false ∧ lexLess lt zs xs = false := by
  induction xs with
  | nil =>
    intro ys zs h1 h2 h3 h4
    cases ys with
    | nil => exact ⟨h3, h4⟩
    | cons y ys => simp [lexLess] at h1
  | cons x xs ih =>
    intro ys zs h1 h2 h3 h4
    cases ys with
    | nil => simp [lexLess] at h2
    | cons y ys =>
      cases zs with
      | nil => simp [lexLess] at h4
      | cons z zs =>
        obtain ⟨hxy, hyx, t1, t2⟩ := lexLess_incomparable_cons lt h1 h2
        obtain ⟨hyz, hzy, t3, t4⟩ := lexLess_incomparable_cons lt h3 h4
        have hxz := hinc x y z hxy hyx hyz hzy
        have hrec := ih ys zs t1 t2 t3 t4
        simp only [lexLess, hxz.1, hxz.2]
        exact ⟨by simpa using hrec.1, by simpa using hrec.2⟩

end Lemmas

/-! ## The claims -/

section Claims

variable {α : Type}

/-- C1 (defect in the code): on the vector built from `{1, 2, 3}` (size 3, capacity 3),
`Resize(4)` takes the growing branch, whose `swap` with the fresh vector of capacity
`max(4, 6) = 6` also takes that vector's size: `GetSize()` is 6 afterwards and not 4, while
`Resize(2)` through the other branch reports 2.  This holds whatever the allocations
held. -/
theorem C1_Resize_size_at_full_capacity (fresh1 fresh2 : Nat → Nat) :
    ((SimpleVector.ctor_list fresh1 [1, 2, 3]).bind
        fun v => v.Resize fresh2 4).map SimpleVector.GetSize = some 6 ∧
    ((SimpleVector.ctor_list fresh1 [1, 2, 3]).bind
        fun v => v.Resize fresh2 2).map SimpleVector.GetSize = some 2 := by
  have hv : SimpleVector.ctor_list fresh1 [1, 2, 3] = some ⟨⟨some [1, 2, 3]⟩, 3, 3⟩ := by
    rw [ctor_list_eq]
    rfl
  have hinv := Inv_of_some [1, 2, 3] 3 3 rfl (by decide) (by decide)
  obtain ⟨w4, hw4, _, hs4, _⟩ := Resize_full hinv fresh2 4
  obtain ⟨w2, hw2, _, hs2, _⟩ := Resize_full hinv fresh2 2
  rw [hv]
  simp only [Option.some_bind, hw4, hw2, Option.map_some', SimpleVector.GetSize]
  exact ⟨by rw [hs4]; rfl, by rw [hs2]; rfl⟩

/-- C3: from the default-constructed vector, `PushBack` of the values `xs` one after the
other returns with size `xs.length` and content `xs`; the capacity is 0 for no push and
otherwise the least power of two that is at least the number of pushes; and the capacity
after any initial part of the pushes is at most the capacity at the end.  This holds
whatever the allocations held. -/
theorem C3_PushBack_doubling [Inhabited α] (fresh : Nat → Nat → α) (xs : List α) :
    ∃ w, PushBackAll fresh (SimpleVector.ctor : SimpleVector α) xs = some w ∧
      w.GetSize = xs.length ∧ w.content = xs ∧
      (xs.length = 0 → w.GetCapacity = 0) ∧
      (0 < xs.length →
        ∃ k, w.GetCapacity = 2 ^ k ∧ xs.length ≤ 2 ^ k ∧ ∀ j, xs.length ≤ 2 ^ j → k ≤ j) ∧
      (∀ m, ∃ u, PushBackAll fresh (SimpleVector.ctor : SimpleVector α) (xs.take m) = some u ∧
        u.GetCapacity ≤ w.GetCapacity) := by
  have h0 : (SimpleVector.ctor : SimpleVector α).Inv := Inv_of_null α
  have hp0 : OnDoublingPath (SimpleVector.ctor : SimpleVector α).size_
      (SimpleVector.ctor : SimpleVector α).capacity_ := Or.inl ⟨rfl, rfl⟩
  obtain ⟨w, hw, hwinv, hwsize, hwcont, _, hwpath⟩ := PushBackAll_full xs fresh h0
  have hsz : w.size_ = xs.length := by
    rw [hwsize]
    show 0 + xs.length = xs.length
    omega
  have hpath := hwpath hp0
  rw [hsz] at hpath
  refine ⟨w, hw, hsz, ?_, ?_, ?_, ?_⟩
  · rw [hwcont]
    show List.take 0 _ ++ xs = xs
    simp
  · intro hlen
    rcases hpath with ⟨_, hc⟩ | ⟨k, _, hpos, _, _⟩
    · exact hc
    · omega
  · intro hlen
    exact OnDoublingPath_least hpath hlen
  · intro m
    obtain ⟨u, hu, huinv, _, _, _, _⟩ := PushBackAll_full (xs.take m) fresh h0
    obtain ⟨t, ht, _, _, _, htcap, _⟩ :=
      PushBackAll_full (xs.drop m) (fun k => fresh (k + (xs.take m).length)) huinv
    have happ := PushBackAll_append (xs.take m) (xs.drop m) fresh
      (SimpleVector.ctor : SimpleVector α)
    rw [List.take_append_drop, hw, hu, Option.some_bind, ht] at happ
    cases happ
    exact ⟨u, hu, htcap⟩

/-- C3, at the pushes 7, 8, 9: capacity 4, the least power of two from 3 on. -/
theorem C3_PushBack_doubling_witness :
    ∃ w, PushBackAll (fun _ _ => 5) (SimpleVector.ctor : SimpleVector Nat) [7, 8, 9] = some w ∧
      w.GetSize = 3 ∧ w.content = [7, 8, 9] ∧
      (3 = 0 → w.GetCapacity = 0) ∧
      (0 < 3 → ∃ k, w.GetCapacity = 2 ^ k ∧ 3 ≤ 2 ^ k ∧ ∀ j, 3 ≤ 2 ^ j → k ≤ j) ∧
      (∀ m, ∃ u, PushBackAll (fun _ _ => 5) (SimpleVector.ctor : SimpleVector Nat)
          ([7, 8, 9].take m) = some u ∧
        u.GetCapacity ≤ w.GetCapacity) :=
  C3_PushBack_doubling (fun _ _ => 5) [7, 8, 9]

/-- C5: on a vector satisfying the representation invariant with content `e0 .. e(s-1)`,
`Erase(begin() + p)` with `p < s` returns with content `e0 .. e(p-1), e(p+1) .. e(s-1)`,
size `s - 1`, the same capacity, and the iterator at offset `p`, which is `end()` when the
last element was erased and otherwise points at the element that followed. -/
theorem C5_Erase_effect (v : SimpleVector α) (p : Nat) (h : v.Inv) (hp : p < v.GetSize) :
    ∃ w, v.Erase p = some (w, p) ∧
      w.content = v.content.take p ++ v.content.drop (p + 1) ∧
      w.GetSize = v.GetSize - 1 ∧
      w.GetCapacity = v.GetCapacity ∧
      (p + 1 = v.GetSize → p = w.end_) ∧
      (p + 1 < v.GetSize → w.index p = v.index (p + 1)) := by
  obtain ⟨w, hw, hinv, hsize, hcap, hcont⟩ := Erase_full h p hp
  have hp2 : p < v.size_ := hp
  refine ⟨w, hw, ?_, hsize, hcap, ?_, ?_⟩
  · rw [hcont, List.eraseIdx_eq_take_drop_succ]
  · intro hlast
    have hlast2 : p + 1 = v.size_ := hlast
    show p = w.size_
    omega
  · intro hmid
    have hmid2 : p + 1 < v.size_ := hmid
    rw [index_eq_content hinv (by omega), index_eq_content h hmid2, hcont,
      List.getElem?_eraseIdx, if_neg (by omega)]

/-- C5, at the scenario of the specification: `Erase(begin() + 1)` on `{1, 2, 3}` gives
`{1, 3}`, size 2. -/
theorem C5_Erase_effect_witness :
    ∃ w, (SimpleVector.mk ⟨some [1, 2, 3]⟩ 3 3).Erase 1 = some (w, 1) ∧
      w.content = [1, 3] ∧
      w.GetSize = 2 ∧
      w.GetCapacity = 3 ∧
      (1 + 1 = 3 → 1 = w.end_) ∧
      (1 + 1 < 3 → w.index 1 = (SimpleVector.mk ⟨some [1, 2, 3]⟩ 3 3).index (1 + 1)) :=
  C5_Erase_effect (SimpleVector.mk ⟨some [1, 2, 3]⟩ 3 3) 1
    (Inv_of_some [1, 2, 3] 3 3 rfl (by decide) (by decide)) (by decide)

/-- C6: on a vector satisfying the representation invariant, `Insert` at offset `p ≤ size`
followed by `Erase` at the same offset of the current buffer returns with the original size
and the original content; the capacity is at least the original one.  The same holds of
every result `Insert` has for a parameter that refers into the vector. -/
theorem C6_Insert_then_Erase [Inhabited α] (v : SimpleVector α) (fresh : Nat → α) (p : Nat)
    (x : α) (h : v.Inv) (hp : p ≤ v.GetSize) :
    (∃ w u, v.Insert fresh p (Arg.external x) = some (w, p) ∧ w.Erase p = some (u, p) ∧
      u.GetSize = v.GetSize ∧ u.content = v.content ∧ v.GetCapacity ≤ u.GetCapacity) ∧
    (∀ (a : Arg α) (w : SimpleVector α) (q : Nat), v.Insert fresh p a = some (w, q) →
      q = p ∧ ∃ u, w.Erase p = some (u, p) ∧
        u.GetSize = v.GetSize ∧ u.content = v.content ∧ v.GetCapacity ≤ u.GetCapacity) := by
  have hp2 : p ≤ v.size_ := hp
  have hlen := content_length h
  have hback : ∀ (a : Arg α) (w : SimpleVector α) (q : Nat),
      v.Insert fresh p a = some (w, q) →
      q = p ∧ ∃ u, w.Erase p = some (u, p) ∧
        u.GetSize = v.GetSize ∧ u.content = v.content ∧ v.GetCapacity ≤ u.GetCapacity := by
    intro a w q hw
    obtain ⟨hq, hwinv, hwsize, hwcap, y, hwcont⟩ := Insert_some h fresh p hp2 a hw
    obtain ⟨u, hu, _, husize, hucap, hucont⟩ := Erase_full hwinv p (by omega)
    refine ⟨hq, u, hu, ?_, ?_, ?_⟩
    · show u.size_ = v.size_
      omega
    · rw [hucont, hwcont]
      exact eraseIdx_inserted v.content p y (by omega)
    · show v.capacity_ ≤ u.capacity_
      rw [hucap, hwcap]
      exact le_grownCapacity v
  refine ⟨?_, hback⟩
  obtain ⟨w, hw, _⟩ := Insert_full h fresh p x hp2
  obtain ⟨_, u, hu, hrest⟩ := hback (Arg.external x) w p hw
  exact ⟨w, u, hw, hu, hrest⟩

/-- C6, at the full vector `{1, 2, 3}`, offset 1 and value 9: the content is back, the
capacity went from 3 to 6. -/
theorem C6_Insert_then_Erase_witness :
    ∃ w u, (SimpleVector.mk ⟨some [1, 2, 3]⟩ 3 3).Insert (fun _ => 7) 1 (Arg.external 9) =
        some (w, 1) ∧
      w.Erase 1 = some (u, 1) ∧
      u.GetSize = 3 ∧ u.content = [1, 2, 3] ∧ 3 ≤ u.GetCapacity :=
  (C6_Insert_then_Erase (SimpleVector.mk ⟨some [1, 2, 3]⟩ 3 3) (fun _ => 7) 1 9
    (Inv_of_some [1, 2, 3] 3 3 rfl (by decide) (by decide)) (by decide)).1

/-- C7: `At(i)` throws `std::out_of_range` exactly when `i ≥ GetSize()`, whatever the
capacity; for `i < GetSize()` it returns what the unchecked `operator[]` returns, which
under the representation invariant is an element of the buffer.  (`At` is a function of
the state alone: it has no effect on the vector.) -/
theorem C7_At_checked (v : SimpleVector α) (i : Nat) :
    ((∃ e, v.At i = Except.error e) ↔ i ≥ v.GetSize) ∧
    (i < v.GetSize → v.At i = Except.ok (v.index i)) ∧
    (v.Inv → i < v.GetSize → ∃ a, v.index i = some a ∧ v.At i = Except.ok (some a)) := by
  have hok : i < v.GetSize → v.At i = Except.ok (v.index i) := by
    intro hi
    have hn : ¬ (i ≥ v.GetSize) := by omega
    simp only [SimpleVector.At, hn, if_false]
    rfl
  refine ⟨⟨?_, ?_⟩, hok, ?_⟩
  · rintro ⟨e, he⟩
    by_contra hn
    rw [hok (by omega)] at he
    cases he
  · intro hge
    refine ⟨⟨"Index is out of range"⟩, ?_⟩
    simp only [SimpleVector.At, hge, if_true]
    rfl
  · intro hinv hi
    obtain ⟨a, ha⟩ := Option.isSome_iff_exists.mp (index_isSome hinv hi)
    exact ⟨a, ha, by rw [hok hi, ha]⟩

/-- C7, at the scenario of the specification: `At(5)` on `{1, 3, 4}` raises, and so does
`At(3)`, while `At(2)` returns the element 4. -/
theorem C7_At_checked_witness :
    (∃ e, (SimpleVector.mk ⟨some [1, 3, 4]⟩ 3 3).At 5 = Except.error e) ∧
    (∃ e, (SimpleVector.mk ⟨some [1, 3, 4]⟩ 3 3).At 3 = Except.error e) ∧
    (SimpleVector.mk ⟨some [1, 3, 4]⟩ 3 3).At 2 = Except.ok (some 4) :=
  ⟨(C7_At_checked (SimpleVector.mk ⟨some [1, 3, 4]⟩ 3 3) 5).1.mpr (by decide),
   (C7_At_checked (SimpleVector.mk ⟨some [1, 3, 4]⟩ 3 3) 3).1.mpr (by decide),
   (C7_At_checked (SimpleVector.mk ⟨some [1, 3, 4]⟩ 3 3) 2).2.1 (by decide)⟩

/-- C8: every vector built by a constructor and then transformed by any finite series of
`Clear`, `Resize`, `PushBack`, `Insert`, `PopBack`, `Erase`, `Reserve`, `swap`, copy and move
assignment (positions within their precondition, parameters referring anywhere) has
`size ≤ capacity`, a capacity equal to the element count of its buffer, and capacity 0
exactly when the buffer pointer is null; and on such a vector every one of these members
returns (`PushBack` and `Insert` for a value held outside the buffer). -/
theorem C8_representation_invariant [Inhabited α] (v : SimpleVector α) (hr : Reachable v) :
    v.GetSize ≤ v.GetCapacity ∧
    v.GetCapacity = v.array_ptr_.allocated ∧
    (v.GetCapacity = 0 ↔ v.array_ptr_.raw_ptr_ = none) ∧
    (∀ fresh k, ∃ w, v.Resize fresh k = some w) ∧
    (∀ fresh x, ∃ w, v.PushBack fresh (Arg.external x) = some w) ∧
    (∀ fresh p x, p ≤ v.GetSize → ∃ w, v.Insert fresh p (Arg.external x) = some (w, p)) ∧
    (∀ p, p < v.GetSize → ∃ w, v.Erase p = some (w, p)) ∧
    (∀ fresh n, ∃ w, v.Reserve fresh n = some w) ∧
    (∀ fresh, ∃ w, SimpleVector.ctor_copy fresh v = some w) ∧
    (∀ fresh (a : SimpleVector α), ∃ r, a.assign_copy fresh v = some r) := by
  have h := Reachable_Inv hr
  refine ⟨h.1, h.2.1, h.2.2, ?_, ?_, ?_, ?_, ?_, ?_, ?_⟩
  · intro fresh k
    obtain ⟨w, hw, _⟩ := Resize_full h fresh k
    exact ⟨w, hw⟩
  · intro fresh x
    obtain ⟨w, hw, _⟩ := PushBack_full h fresh x
    exact ⟨w, hw⟩
  · intro fresh p x hp
    obtain ⟨w, hw, _⟩ := Insert_full h fresh p x hp
    exact ⟨w, hw⟩
  · intro p hp
    obtain ⟨w, hw, _⟩ := Erase_full h p hp
    exact ⟨w, hw⟩
  · intro fresh n
    obtain ⟨w, hw, _⟩ := Reserve_full h fresh n
    exact ⟨w, hw⟩
  · intro fresh
    obtain ⟨w, hw, _⟩ := ctor_copy_full h fresh
    exact ⟨w, hw⟩
  · intro fresh a
    obtain ⟨w, hw, _⟩ := ctor_copy_full h fresh
    exact ⟨_, by simp only [SimpleVector.assign_copy, hw, Option.map_some]; rfl⟩

/-- C8, at the state reached from `{1, 2, 3}` by `Erase(begin() + 1)`, `PushBack(4)` and
`Resize(3)`: size 6, capacity 6, a buffer of 6 elements. -/
theorem C8_representation_invariant_witness :
    Reachable (SimpleVector.mk ⟨some [1, 3, 4, 0, 0, 0]⟩ 6 6) ∧
    (SimpleVector.mk ⟨some [1, 3, 4, 0, 0, 0]⟩ 6 6).GetSize ≤
      (SimpleVector.mk ⟨some [1, 3, 4, 0, 0, 0]⟩ 6 6).GetCapacity ∧
    (SimpleVector.mk ⟨some [1, 3, 4, 0, 0, 0]⟩ 6 6).GetCapacity =
      (SimpleVector.mk ⟨some [1, 3, 4, 0, 0, 0]⟩ 6 6).array_ptr_.allocated :=
  have hr : Reachable (SimpleVector.mk ⟨some [1, 3, 4, 0, 0, 0]⟩ 6 6) :=
    Reachable.Resize (fun _ => 7) (SimpleVector.mk ⟨some [1, 3, 4]⟩ 3 3) 3 _
      (Reachable.PushBack (fun _ => 7) (SimpleVector.mk ⟨some [1, 3, 3]⟩ 3 2)
        (Arg.external 4) _
        (Reachable.Erase (SimpleVector.mk ⟨some [1, 2, 3]⟩ 3 3) 1 _ 1
          (Reachable.ctor_list (fun _ => 7) [1, 2, 3] _ (by decide)) (by decide) (by decide))
        (by decide))
      (by decide)
  ⟨hr, (C8_representation_invariant _ hr).1, (C8_representation_invariant _ hr).2.1⟩

/-- C9, as stated, fails at `k == c`: on the vector built from `{1, 2, 3}` (capacity 3)
`Resize(3)` takes the growing branch and leaves capacity 6. -/
theorem C9_Resize_capacity_counterexample :
    ∃ v : SimpleVector Nat, SimpleVector.ctor_list (fun _ => 7) [1, 2, 3] = some v ∧
      3 ≤ v.GetCapacity ∧
      (v.Resize (fun _ => 7) 3).map SimpleVector.GetCapacity = some 6 ∧
      ¬ ((v.Resize (fun _ => 7) 3).map SimpleVector.GetCapacity = some v.GetCapacity) :=
  ⟨SimpleVector.mk ⟨some [1, 2, 3]⟩ 3 3, by decide, by decide, by decide, by decide⟩

/-- C9 (amended): on a vector satisfying the representation invariant with capacity `c`,
`Resize(k)` returns; if `k < c` the capacity stays `c`, and if `k ≥ c` (so also at `k = c`)
the capacity afterwards is `max(k, 2 * c)`. -/
theorem C9_Resize_capacity [Inhabited α] (v : SimpleVector α) (fresh : Nat → α) (k : Nat)
    (h : v.Inv) :
    ∃ w, v.Resize fresh k = some w ∧
      (k < v.GetCapacity → w.GetCapacity = v.GetCapacity) ∧
      (v.GetCapacity ≤ k → w.GetCapacity = max k (2 * v.GetCapacity)) := by
  obtain ⟨w, hw, _, _, hcap, _⟩ := Resize_full h fresh k
  refine ⟨w, hw, ?_, ?_⟩
  · intro hk
    have hk2 : k < v.capacity_ := hk
    show w.capacity_ = v.capacity_
    rw [hcap, if_pos hk2]
  · intro hk
    have hk2 : ¬ (k < v.capacity_) := Nat.not_lt.mpr hk
    show w.capacity_ = max k (2 * v.capacity_)
    rw [hcap, if_neg hk2, Nat.mul_comm]

/-- C9 (amended), at `{1, 2, 3}` and `k = 3`: the capacity becomes `max(3, 6)`. -/
theorem C9_Resize_capacity_witness :
    ∃ w, (SimpleVector.mk ⟨some [1, 2, 3]⟩ 3 3).Resize (fun _ => 7) 3 = some w ∧
      (3 < 3 → w.GetCapacity = 3) ∧
      (3 ≤ 3 → w.GetCapacity = max 3 (2 * 3)) :=
  C9_Resize_capacity (SimpleVector.mk ⟨some [1, 2, 3]⟩ 3 3) (fun _ => 7) 3
    (Inv_of_some [1, 2, 3] 3 3 rfl (by decide) (by decide))

/-- C10: on a vector satisfying the representation invariant with size `s`, `Resize(k)`
returns; every position below `min(s, k)` holds the element it held before, and every
position `i` with `s ≤ i < k` holds the default value of the element type, whatever the
buffer held beyond the size and whatever a new allocation held. -/
theorem C10_Resize_content [Inhabited α] (v : SimpleVector α) (fresh : Nat → α) (k : Nat)
    (h : v.Inv) :
    ∃ w, v.Resize fresh k = some w ∧
      (∀ i, i < min v.GetSize k → w.index i = v.index i) ∧
      (∀ i, v.GetSize ≤ i → i < k → w.index i = some default) := by
  obtain ⟨w, hw, _, _, _, hold, hnew⟩ := Resize_full h fresh k
  refine ⟨w, hw, ?_, hnew⟩
  intro i hi
  have hi2 : i < min v.size_ k := hi
  exact hold i (by omega) (by omega)

/-- C10, in both branches.  At a vector of size 1 whose buffer still holds the stale values
2 and 3 beyond the size, after `Resize(2)` position 1 holds the default value 0.  At the
full vector `{1, 2, 3}`, after `Resize(5)` into an allocation that held 9 in every cell,
positions 3 and 4 hold the default value 0. -/
theorem C10_Resize_content_witness :
    (∃ w, (SimpleVector.mk ⟨some [1, 2, 3]⟩ 3 1).Resize (fun _ => 9) 2 = some w ∧
      (∀ i, i < min 1 2 → w.index i = (SimpleVector.mk ⟨some [1, 2, 3]⟩ 3 1).index i) ∧
      (∀ i, 1 ≤ i → i < 2 → w.index i = some 0)) ∧
    (∃ w, (SimpleVector.mk ⟨some [1, 2, 3]⟩ 3 3).Resize (fun _ => 9) 5 = some w ∧
      (∀ i, i < min 3 5 → w.index i = (SimpleVector.mk ⟨some [1, 2, 3]⟩ 3 3).index i) ∧
      (∀ i, 3 ≤ i → i < 5 → w.index i = some 0)) :=
  ⟨C10_Resize_content (SimpleVector.mk ⟨some [1, 2, 3]⟩ 3 1) (fun _ => 9) 2
      (Inv_of_some [1, 2, 3] 3 1 rfl (by decide) (by decide)),
    C10_Resize_content (SimpleVector.mk ⟨some [1, 2, 3]⟩ 3 3) (fun _ => 9) 5
      (Inv_of_some [1, 2, 3] 3 3 rfl (by decide) (by decide))⟩

/-- C11: on a vector satisfying the representation invariant with capacity `c`,
`Reserve(n)` returns with the size and the elements below the size unchanged; for `n ≤ c`
the whole state is unchanged, and for `n > c` the capacity is exactly `n`. -/
theorem C11_Reserve_effect [Inhabited α] (v : SimpleVector α) (fresh : Nat → α) (n : Nat)
    (h : v.Inv) :
    ∃ w, v.Reserve fresh n = some w ∧
      w.GetSize = v.GetSize ∧
      (∀ i, i < v.GetSize → w.index i = v.index i) ∧
      (n ≤ v.GetCapacity → w = v) ∧
      (v.GetCapacity < n → w.GetCapacity = n) := by
  obtain ⟨w, hw, hinv, hsize, hcap, hcont⟩ := Reserve_full h fresh n
  refine ⟨w, hw, hsize, ?_, ?_, ?_⟩
  · intro i hi
    have hi2 : i < v.size_ := hi
    rw [index_eq_content hinv (by omega), index_eq_content h hi2, hcont]
  · intro hn
    have hn2 : v.capacity_ ≥ n := hn
    have hv : v.Reserve fresh n = some v := by simp [SimpleVector.Reserve, hn2]
    rw [hv] at hw
    exact (Option.some.inj hw).symm
  · intro hn
    have hn2 : ¬ (n ≤ v.capacity_) := Nat.not_le.mpr hn
    show w.capacity_ = n
    rw [hcap, if_neg hn2]

/-- C11, at `{1, 2}` in a buffer of 3: `Reserve(5)` gives capacity 5 and keeps size 2. -/
theorem C11_Reserve_effect_witness :
    ∃ w, (SimpleVector.mk ⟨some [1, 2, 7]⟩ 3 2).Reserve (fun _ => 9) 5 = some w ∧
      w.GetSize = 2 ∧
      (∀ i, i < 2 → w.index i = (SimpleVector.mk ⟨some [1, 2, 7]⟩ 3 2).index i) ∧
      (5 ≤ 3 → w = SimpleVector.mk ⟨some [1, 2, 7]⟩ 3 2) ∧
      (3 < 5 → w.GetCapacity = 5) :=
  C11_Reserve_effect (SimpleVector.mk ⟨some [1, 2, 7]⟩ 3 2) (fun _ => 9) 5
    (Inv_of_some [1, 2, 7] 3 2 rfl (by decide) (by decide))

/-- C12: from a source `s` satisfying the representation invariant, the copy constructor
returns a vector with size `s.GetSize()`, capacity `s.GetSize()` and the elements of `s`
below the size; copy assignment of `s` to a distinct vector leaves that same vector in the
target and `s` itself as it was; copy assignment of a vector to itself changes nothing. -/
theorem C12_copy_effect [Inhabited α] (s : SimpleVector α) (fresh : Nat → α) (h : s.Inv) :
    ∃ w, SimpleVector.ctor_copy fresh s = some w ∧
      w.GetSize = s.GetSize ∧
      w.GetCapacity = s.GetSize ∧
      (∀ i, i < s.GetSize → w.index i = s.index i) ∧
      (∀ a : SimpleVector α, a.assign_copy fresh s = some (w, s)) ∧
      s.assign_copy_self = s := by
  obtain ⟨w, hw, hinv, hsize, hcap, hcont⟩ := ctor_copy_full h fresh
  refine ⟨w, hw, hsize, hcap, ?_, ?_, rfl⟩
  · intro i hi
    have hi2 : i < s.size_ := hi
    rw [index_eq_content hinv (by omega), index_eq_content h hi2, hcont]
  · intro a
    simp only [SimpleVector.assign_copy, hw, Option.map_some]
    rfl

/-- C12, at the scenario of the specification: the copy of a vector of size 3 and capacity 8
has size 3 and capacity 3. -/
theorem C12_copy_effect_witness :
    ∃ w, SimpleVector.ctor_copy (fun _ => 9)
        (SimpleVector.mk ⟨some [1, 2, 3, 0, 0, 0, 0, 0]⟩ 8 3) = some w ∧
      w.GetSize = 3 ∧
      w.GetCapacity = 3 ∧
      (∀ i, i < 3 →
        w.index i = (SimpleVector.mk ⟨some [1, 2, 3, 0, 0, 0, 0, 0]⟩ 8 3).index i) ∧
      (∀ a : SimpleVector Nat,
        a.assign_copy (fun _ => 9) (SimpleVector.mk ⟨some [1, 2, 3, 0, 0, 0, 0, 0]⟩ 8 3) =
          some (w, SimpleVector.mk ⟨some [1, 2, 3, 0, 0, 0, 0, 0]⟩ 8 3)) ∧
      (SimpleVector.mk ⟨some [1, 2, 3, 0, 0, 0, 0, 0]⟩ 8 3).assign_copy_self =
        SimpleVector.mk ⟨some [1, 2, 3, 0, 0, 0, 0, 0]⟩ 8 3 :=
  C12_copy_effect (SimpleVector.mk ⟨some [1, 2, 3, 0, 0, 0, 0, 0]⟩ 8 3) (fun _ => 9)
    (Inv_of_some [1, 2, 3, 0, 0, 0, 0, 0] 8 3 rfl (by decide) (by decide))

/-- C13: after move construction from `s`, and after move assignment from `s` into a
distinct vector, the destination has the buffer, the size and the capacity `s` had, and `s`
has size 0, capacity 0 and the null buffer pointer. -/
theorem C13_move_effect (s a : SimpleVector α) :
    ((SimpleVector.ctor_move s).1 = s ∧
      (SimpleVector.ctor_move s).2.GetSize = 0 ∧
      (SimpleVector.ctor_move s).2.GetCapacity = 0 ∧
      (SimpleVector.ctor_move s).2.array_ptr_.raw_ptr_ = none) ∧
    ((a.assign_move s).1 = s ∧
      (a.assign_move s).2.GetSize = 0 ∧
      (a.assign_move s).2.GetCapacity = 0 ∧
      (a.assign_move s).2.array_ptr_.raw_ptr_ = none) := by
  rcases s with ⟨⟨ps⟩, cs, ss⟩
  exact ⟨⟨rfl, rfl, rfl, rfl⟩, ⟨rfl, rfl, rfl, rfl⟩⟩

/-- C16: for every `n`, the vector constructed from `Reserve(n)` has size 0 and capacity
`n`, and `PushBack` of at most `n` values on it returns with these values as content, their
number as size, and capacity still `n`. -/
theorem C16_reserved_storage [Inhabited α] (fresh0 : Nat → α) (n : Nat) :
    ∃ v : SimpleVector α, SimpleVector.ctor_reserve fresh0 (SV.Reserve n) = some v ∧
      v.GetSize = 0 ∧ v.GetCapacity = n ∧
      ∀ (fresh : Nat → Nat → α) (xs : List α), xs.length ≤ n →
        ∃ w, PushBackAll fresh v xs = some w ∧ w.GetSize = xs.length ∧ w.content = xs ∧
          w.GetCapacity = n := by
  refine ⟨⟨filled n default, n, 0⟩, ?_, rfl, rfl, ?_⟩
  · simp [SimpleVector.ctor_reserve, SV.Reserve, ctor_size_eq]
  · intro fresh xs hxs
    have hinv : (SimpleVector.mk (filled n (default : α)) n 0).Inv :=
      Inv_filled n 0 default (Nat.zero_le _)
    obtain ⟨w, hw, hwsize, hwcont, hwcap⟩ := PushBackAll_within xs fresh hinv
      (by show 0 + xs.length ≤ n; omega)
    refine ⟨w, hw, ?_, ?_, hwcap⟩
    · show w.size_ = xs.length
      rw [hwsize]
      show 0 + xs.length = xs.length
      omega
    · rw [hwcont]
      show List.take 0 _ ++ xs = xs
      simp

/-- C16, at `n = 3`: three pushes fill the reserved storage without growth. -/
theorem C16_reserved_storage_witness :
    ∃ w, (SimpleVector.ctor_reserve (fun _ => 9) (SV.Reserve 3) :
        Option (SimpleVector Nat)).bind
        (fun v => PushBackAll (fun _ _ => 9) v [7, 8, 9]) = some w ∧
      w.GetSize = 3 ∧ w.content = [7, 8, 9] ∧ w.GetCapacity = 3 := by
  obtain ⟨v, hv, _, _, hpush⟩ := @C16_reserved_storage Nat _ (fun _ => 9) 3
  obtain ⟨w, hw, hs, hc, hcap⟩ := hpush (fun _ _ => 9) [7, 8, 9] (by decide)
  exact ⟨w, by rw [hv]; exact hw, hs, hc, hcap⟩

/-- C17: the default constructor gives size 0 and capacity 0; whatever the allocation held,
`SimpleVector(n)` returns with size `n`, capacity `n` and the default value at every
position, `SimpleVector(n, x)` returns with size `n`, capacity `n` and `x` at every
position, and the initializer-list constructor returns with size and capacity the length of
the list and the elements of the list in order. -/
theorem C17_constructors [Inhabited α] :
    ((SimpleVector.ctor : SimpleVector α).GetSize = 0 ∧
      (SimpleVector.ctor : SimpleVector α).GetCapacity = 0) ∧
    (∀ (fresh : Nat → α) n, ∃ w : SimpleVector α, SimpleVector.ctor_size fresh n = some w ∧
      w.GetSize = n ∧ w.GetCapacity = n ∧ ∀ i, i < n → w.index i = some default) ∧
    (∀ (fresh : Nat → α) n (x : α), ∃ w, SimpleVector.ctor_size_value fresh n x = some w ∧
      w.GetSize = n ∧ w.GetCapacity = n ∧ ∀ i, i < n → w.index i = some x) ∧
    (∀ (fresh : Nat → α) (init : List α), ∃ w, SimpleVector.ctor_list fresh init = some w ∧
      w.GetSize = init.length ∧ w.GetCapacity = init.length ∧ w.content = init ∧
      ∀ i, w.index i = init[i]?) := by
  refine ⟨⟨rfl, rfl⟩, ?_, ?_, ?_⟩
  · intro fresh n
    exact ⟨_, ctor_size_eq fresh n, rfl, rfl, fun i hi => index_filled n n n i default hi⟩
  · intro fresh n x
    exact ⟨_, ctor_size_value_eq fresh n x, rfl, rfl,
      fun i hi => index_filled n n n i x hi⟩
  · intro fresh init
    refine ⟨_, ctor_list_eq fresh init, rfl, rfl, ?_, ?_⟩
    · cases init with
      | nil => rfl
      | cons a as => simp [SimpleVector.content, ArrayPtr.cells]
    · intro i
      cases init with
      | nil => rfl
      | cons a as => simp [SimpleVector.index, ArrayPtr.index]

/-- C17, at `SimpleVector(2)`, `SimpleVector(2, 5)` and the list `{1, 2, 3}`, each on an
allocation that held 9 in every cell, as `ArrayPtr(2)` alone leaves it. -/
theorem C17_constructors_witness :
    (ArrayPtr.ofSize 2 (fun _ => 9) : ArrayPtr Nat) = ⟨some [9, 9]⟩ ∧
    SimpleVector.ctor_size (fun _ => 9) 2 = some ⟨⟨some [0, 0]⟩, 2, 2⟩ ∧
    SimpleVector.ctor_size_value (fun _ => 9) 2 5 = some ⟨⟨some [5, 5]⟩, 2, 2⟩ ∧
    (∃ w : SimpleVector Nat, SimpleVector.ctor_size (fun _ => 9) 2 = some w ∧
      w.GetSize = 2 ∧ w.GetCapacity = 2 ∧ ∀ i, i < 2 → w.index i = some 0) ∧
    (∃ w, SimpleVector.ctor_list (fun _ => 9) [1, 2, 3] = some w ∧
      w.GetSize = 3 ∧ w.GetCapacity = 3 ∧ w.content = [1, 2, 3] ∧
      ∀ i, w.index i = [1, 2, 3][i]?) :=
  ⟨by decide, by decide, by decide, (@C17_constructors Nat _).2.1 (fun _ => 9) 2,
    (@C17_constructors Nat _).2.2.2 (fun _ => 9) [1, 2, 3]⟩

/-- C18: `Clear` sets the size to 0, so `IsEmpty()` holds, and `PopBack` lowers a positive
size by one and leaves an empty vector as it is; both leave the capacity and the buffer, so
every stored value, unchanged. -/
theorem C18_Clear_PopBack_frame (v : SimpleVector α) :
    (v.Clear.GetSize = 0 ∧ v.Clear.IsEmpty = true ∧
      v.Clear.GetCapacity = v.GetCapacity ∧ v.Clear.array_ptr_ = v.array_ptr_) ∧
    (0 < v.GetSize → v.PopBack.GetSize = v.GetSize - 1) ∧
    (v.GetSize = 0 → v.PopBack = v) ∧
    v.PopBack.GetCapacity = v.GetCapacity ∧
    v.PopBack.array_ptr_ = v.array_ptr_ ∧
    (∀ i, v.PopBack.index i = v.index i) ∧ (∀ i, v.Clear.index i = v.index i) := by
  have hbuf : v.PopBack.array_ptr_ = v.array_ptr_ := by
    unfold SimpleVector.PopBack
    split <;> rfl
  refine ⟨⟨rfl, rfl, rfl, rfl⟩, ?_, ?_, ?_, hbuf, ?_, fun _ => rfl⟩
  · intro hpos
    have hpos2 : v.size_ > 0 := hpos
    simp only [SimpleVector.PopBack, hpos2, if_true]
    rfl
  · intro hzero
    have hzero2 : ¬ (v.size_ > 0) := by
      have : v.size_ = 0 := hzero
      omega
    simp only [SimpleVector.PopBack, hzero2, if_false]
  · unfold SimpleVector.PopBack
    split <;> rfl
  · intro i
    show v.PopBack.array_ptr_.index i = v.array_ptr_.index i
    rw [hbuf]

/-- C18, at `{1, 2}` in a buffer of 3 and at the empty vector. -/
theorem C18_Clear_PopBack_frame_witness :
    (SimpleVector.mk ⟨some [1, 2, 7]⟩ 3 2).PopBack = SimpleVector.mk ⟨some [1, 2, 7]⟩ 3 1 ∧
    (SimpleVector.mk ⟨some [1, 2, 7]⟩ 3 2).Clear = SimpleVector.mk ⟨some [1, 2, 7]⟩ 3 0 ∧
    (SimpleVector.ctor : SimpleVector Nat).PopBack = SimpleVector.ctor ∧
    (SimpleVector.mk ⟨some [1, 2, 7]⟩ 3 2).PopBack.GetSize = 2 - 1 :=
  ⟨by decide, by decide,
    (C18_Clear_PopBack_frame (SimpleVector.ctor : SimpleVector Nat)).2.2.1 rfl,
    (C18_Clear_PopBack_frame (SimpleVector.mk ⟨some [1, 2, 7]⟩ 3 2)).2.1 (by decide)⟩

/-- C19: `Insert(end(), x)` is `PushBack(x)` followed by returning the old size as offset,
for every state and every parameter, wherever it refers; on a vector satisfying the
representation invariant both return for a value held outside the buffer, with one and the
same resulting state, and the returned offset is that of the new last element, which is
`x`. -/
theorem C19_Insert_at_end_is_PushBack [Inhabited α] (v : SimpleVector α) (fresh : Nat → α)
    (x : α) :
    (∀ a : Arg α,
      v.Insert fresh v.end_ a = (v.PushBack fresh a).map (fun w => (w, v.GetSize))) ∧
    (v.Inv → ∃ w, v.PushBack fresh (Arg.external x) = some w ∧
      v.Insert fresh v.end_ (Arg.external x) = some (w, v.GetSize) ∧
      v.GetSize + 1 = w.GetSize ∧ w.index v.GetSize = some x) := by
  refine ⟨fun a => Insert_end_eq v fresh a, ?_⟩
  intro h
  obtain ⟨w, hw, hinv, hsize, _, hcont⟩ := PushBack_full h fresh x
  have hlen := content_length h
  refine ⟨w, hw, ?_, ?_, ?_⟩
  · rw [Insert_end_eq v fresh (Arg.external x), hw]
    rfl
  · show v.size_ + 1 = w.size_
    omega
  · show w.index v.size_ = some x
    rw [index_eq_content hinv (by omega), hcont, List.getElem?_append_right (by omega), hlen]
    simp

/-- C19, at the full vector `{1, 2, 3}` and the value 4. -/
theorem C19_Insert_at_end_is_PushBack_witness :
    ∃ w, (SimpleVector.mk ⟨some [1, 2, 3]⟩ 3 3).PushBack (fun _ => 9) (Arg.external 4) =
        some w ∧
      (SimpleVector.mk ⟨some [1, 2, 3]⟩ 3 3).Insert (fun _ => 9) 3 (Arg.external 4) =
        some (w, 3) ∧
      3 + 1 = w.GetSize ∧ w.index 3 = some 4 :=
  (C19_Insert_at_end_is_PushBack (SimpleVector.mk ⟨some [1, 2, 3]⟩ 3 3) (fun _ => 9) 4).2
    (Inv_of_some [1, 2, 3] 3 3 rfl (by decide) (by decide))

/-- C20: on a vector satisfying the representation invariant, the growth step of
`PushBack` and `Insert` returns a state whose size is strictly below its capacity, which is
the element count of its buffer; there the write at slot `size` is inside the buffer, and
for a position `p ≤ size` so is the back-to-front shift, which changes no slot outside
`p + 1 .. size`.  In the non-growing branch of `Resize` (`size < k < capacity`) the fill
loop is inside the buffer and writes exactly the slots `size .. k`, all below the
capacity. -/
theorem C20_writes_in_bounds [Inhabited α] (v : SimpleVector α) (fresh : Nat → α)
    (h : v.Inv) :
    (∃ g, v.growStep fresh = some g ∧ g.GetSize = v.GetSize ∧ g.GetSize < g.GetCapacity ∧
      g.GetCapacity = g.array_ptr_.allocated ∧
      (∀ x, ∃ q, g.array_ptr_.assign g.size_ x = some q) ∧
      (∀ p, p ≤ v.GetSize →
        ∃ q, std_move_backward g.array_ptr_ (g.begin + p) g.end_ (g.end_ + 1) = some q ∧
          q.allocated = g.array_ptr_.allocated ∧
          (∀ i, i ≤ p ∨ g.GetSize < i → q.index i = g.array_ptr_.index i) ∧
          (∀ x, ∃ r, q.assign p x = some r))) ∧
    (∀ k, v.GetSize < k → k < v.GetCapacity →
      k < v.array_ptr_.allocated ∧
      ∃ q, fill v.array_ptr_ (v.begin + v.GetSize) (v.begin + k + 1) default = some q ∧
        q.allocated = v.array_ptr_.allocated ∧
        ∀ i, q.index i = if v.GetSize ≤ i ∧ i ≤ k then some default
          else v.array_ptr_.index i) := by
  constructor
  · obtain ⟨l, hg, hlen, hlt, _, _⟩ := growStep_spec h fresh
    refine ⟨_, hg, rfl, hlt, hlen.symm, ?_, ?_⟩
    · intro x
      exact ⟨_, ArrayPtr.assign_some l v.size_ x (by omega)⟩
    · intro p hp
      have hp2 : p ≤ v.size_ := hp
      obtain ⟨r, hr, hrlen, hget⟩ := moveBackwardLoop_spec (v.size_ - p) v.size_ (v.size_ + 1) l
        (by omega) (by omega) (by omega)
      refine ⟨⟨some r⟩, ?_, hrlen, ?_, ?_⟩
      · simp [std_move_backward, SimpleVector.begin, SimpleVector.end_, hp2, hr]
      · intro i hi
        have hi2 : i ≤ p ∨ v.size_ < i := hi
        show r[i]? = l[i]?
        rw [hget i, if_neg (by omega)]
      · intro x
        exact ⟨_, ArrayPtr.assign_some r p x (by omega)⟩
  · intro k hk hkc
    have hk2 : v.size_ < k := hk
    have hkc2 : k < v.capacity_ := hkc
    rcases Inv_shape h with ⟨_, hc, _⟩ | ⟨l, hl, hll, hc, hs⟩
    · omega
    · obtain ⟨r, hr, hrlen, hget⟩ := fillLoop_spec (default : α) (k + 1 - v.size_) v.size_ l
        (by omega)
      have hle : v.size_ ≤ k + 1 := by omega
      refine ⟨?_, ⟨some r⟩, ?_, ?_, ?_⟩
      · rw [hl]
        show k < l.length
        omega
      · simp [fill, SimpleVector.begin, SimpleVector.GetSize, hl, hle, hr]
      · rw [hl]
        exact hrlen
      · intro i
        rw [hl]
        show r[i]? = if v.size_ ≤ i ∧ i ≤ k then some default else l[i]?
        rw [hget i]
        by_cases hi : v.size_ ≤ i ∧ i ≤ k
        · rw [if_pos hi, if_pos (by omega)]
        · rw [if_neg hi, if_neg (by omega)]

/-- C20, at the full vector `{1, 2, 3}`: the growth step leaves size 3 in a buffer of 6. -/
theorem C20_writes_in_bounds_witness :
    ∃ g, (SimpleVector.mk ⟨some [1, 2, 3]⟩ 3 3).growStep (fun _ => 9) = some g ∧
      g.GetSize = 3 ∧ g.GetSize < g.GetCapacity ∧ g.GetCapacity = g.array_ptr_.allocated :=
  have hall := (C20_writes_in_bounds (SimpleVector.mk ⟨some [1, 2, 3]⟩ 3 3) (fun _ => 9)
    (Inv_of_some [1, 2, 3] 3 3 rfl (by decide) (by decide))).1
  Exists.elim hall fun g hg => ⟨g, hg.1, hg.2.1, hg.2.2.1, hg.2.2.2.1⟩

/-- C14: on vectors satisfying the representation invariant, `a == b` returns, and it
holds exactly when the sizes are equal and the elements at every position below the size are
pairwise `==`; the result depends on the two contents only, not on capacities or on slots
from the size on.  When `==` on elements is reflexive, symmetric or transitive, so is `==`
on vectors; `a != b` is the negation of `b == a`, and of `a == b` when `==` on elements is
symmetric. -/
theorem C14_operator_eq (eq : α → α → Bool) (a b c : SimpleVector α) (ha : a.Inv)
    (hb : b.Inv) (hc : c.Inv) :
    (∃ r, operator_eq eq a b = some r ∧
      (r = true ↔ a.GetSize = b.GetSize ∧
        ∀ i, i < a.GetSize → ∃ x y, a.index i = some x ∧ b.index i = some y ∧ eq x y = true)) ∧
    (∀ a2 b2 : SimpleVector α, a2.Inv → b2.Inv → a2.content = a.content →
      b2.content = b.content → operator_eq eq a2 b2 = operator_eq eq a b) ∧
    ((∀ x, eq x x = true) → operator_eq eq a a = some true) ∧
    ((∀ x y, eq x y = true → eq y x = true) →
      operator_eq eq a b = some true → operator_eq eq b a = some true) ∧
    ((∀ x y z, eq x y = true → eq y z = true → eq x z = true) →
      operator_eq eq a b = some true → operator_eq eq b c = some true →
        operator_eq eq a c = some true) ∧
    operator_ne eq a b = (operator_eq eq b a).map (fun r => !r) ∧
    ((∀ x y, eq x y = true → eq y x = true) →
      operator_ne eq a b = (operator_eq eq a b).map (fun r => !r)) := by
  have hab := operator_eq_content eq ha hb
  have hla := content_length ha
  refine ⟨⟨_, hab, ?_⟩, ?_, ?_, ?_, ?_, rfl, ?_⟩
  · rw [seqEqual_iff, hla, content_length hb]
    constructor
    · rintro ⟨hsz, hall⟩
      refine ⟨hsz, fun i hi => ?_⟩
      have hi2 : i < a.size_ := hi
      obtain ⟨x, y, hx, hy, hxy⟩ := hall i hi2
      exact ⟨x, y, by rw [index_eq_content ha hi2]; exact hx,
        by rw [index_eq_content hb (by omega)]; exact hy, hxy⟩
    · rintro ⟨hsz, hall⟩
      have hsz2 : a.size_ = b.size_ := hsz
      refine ⟨hsz2, fun i hi => ?_⟩
      obtain ⟨x, y, hx, hy, hxy⟩ := hall i hi
      exact ⟨x, y, by rw [← index_eq_content ha hi]; exact hx,
        by rw [← index_eq_content hb (by omega)]; exact hy, hxy⟩
  · intro a2 b2 ha2 hb2 hca hcb
    rw [operator_eq_content eq ha2 hb2, hab, hca, hcb]
  · intro hrefl
    rw [operator_eq_content eq ha ha, seqEqual_refl eq hrefl]
  · intro hsymm h
    rw [hab] at h
    rw [operator_eq_content eq hb ha, seqEqual_symm eq hsymm _ _ (Option.some.inj h)]
  · intro htrans h1 h2
    rw [hab] at h1
    rw [operator_eq_content eq hb hc] at h2
    rw [operator_eq_content eq ha hc,
      seqEqual_trans eq htrans _ _ _ (Option.some.inj h1) (Option.some.inj h2)]
  · intro hsymm
    have hflip : seqEqual eq b.content a.content = seqEqual eq a.content b.content :=
      Bool.eq_iff_iff.mpr ⟨seqEqual_symm eq hsymm _ _, seqEqual_symm eq hsymm _ _⟩
    simp only [operator_ne]
    rw [operator_eq_content eq hb ha, hab, hflip]

/-- C14, at `{1, 2}` held in a buffer of 3 with a stale third slot and `{1, 2}` held in a
buffer of 2: they are equal, in both directions, and `!=` is false. -/
theorem C14_operator_eq_witness :
    operator_eq (fun x y : Nat => decide (x = y))
      (SimpleVector.mk ⟨some [1, 2]⟩ 2 2) (SimpleVector.mk ⟨some [1, 2, 7]⟩ 3 2) = some true ∧
    operator_ne (fun x y : Nat => decide (x = y))
      (SimpleVector.mk ⟨some [1, 2, 7]⟩ 3 2) (SimpleVector.mk ⟨some [1, 2]⟩ 2 2) =
      (operator_eq (fun x y : Nat => decide (x = y))
        (SimpleVector.mk ⟨some [1, 2, 7]⟩ 3 2) (SimpleVector.mk ⟨some [1, 2]⟩ 2 2)).map
        (fun r => !r) :=
  have hall := C14_operator_eq (fun x y : Nat => decide (x = y))
    (SimpleVector.mk ⟨some [1, 2, 7]⟩ 3 2) (SimpleVector.mk ⟨some [1, 2]⟩ 2 2)
    (SimpleVector.mk ⟨some [1, 2]⟩ 2 2)
    (Inv_of_some [1, 2, 7] 3 2 rfl (by decide) (by decide))
    (Inv_of_some [1, 2] 2 2 rfl (by decide) (by decide))
    (Inv_of_some [1, 2] 2 2 rfl (by decide) (by decide))
  have hsymm : ∀ x y : Nat, decide (x = y) = true → decide (y = x) = true :=
    fun x y h => by simpa [eq_comm] using h
  ⟨hall.2.2.2.1 hsymm (by decide), hall.2.2.2.2.2.2 hsymm⟩

/-- C15: on vectors satisfying the representation invariant, `a < b` returns, with the
lexicographic comparison of the two contents: a content that is a proper initial part of
the other is below it (for an irreflexive `<` on elements), and otherwise the first
position at which one element is below the other decides.  When `<` on elements is a strict
weak order, `<` on vectors is irreflexive and transitive and its incomparability is
transitive.  `a > b` is `b < a`, `a <= b` is the negation of `b < a`, and `a >= b` is the
negation of `a < b`. -/
theorem C15_operator_lt (lt : α → α → Bool) (a b c : SimpleVector α) (ha : a.Inv)
    (hb : b.Inv) (hc : c.Inv) :
    operator_lt lt a b = some (lexLess lt a.content b.content) ∧
    ((∀ x, lt x x = false) → ∀ t, t ≠ [] → b.content = a.content ++ t →
      operator_lt lt a b = some true) ∧
    (∀ i x y, i < a.GetSize → i < b.GetSize → a.index i = some x → b.index i = some y →
      (∀ j, j < i → ∀ u v, a.index j = some u → b.index j = some v →
        lt u v = false ∧ lt v u = false) →
      (lt x y = true → operator_lt lt a b = some true) ∧
      (lt x y = false → lt y x = true → operator_lt lt a b = some false)) ∧
    ((∀ x, lt x x = false) →
      (∀ x y z, lt x y = true → lt y z = true → lt x z = true) →
      (∀ x y z, lt x y = false → lt y x = false → lt y z = false → lt z y = false →
        lt x z = false ∧ lt z x = false) →
      operator_lt lt a a = some false ∧
      (operator_lt lt a b = some true → operator_lt lt b c = some true →
        operator_lt lt a c = some true) ∧
      (operator_lt lt a b = some false → operator_lt lt b a = some false →
        operator_lt lt b c = some false → operator_lt lt c b = some false →
        operator_lt lt a c = some false ∧ operator_lt lt c a = some false)) ∧
    operator_gt lt a b = operator_lt lt b a ∧
    operator_le lt a b = (operator_lt lt b a).map (fun r => !r) ∧
    operator_ge lt a b = (operator_lt lt a b).map (fun r => !r) := by
  have hab := operator_lt_content lt ha hb
  refine ⟨hab, ?_, ?_, ?_, rfl, rfl, rfl⟩
  · intro hirr t ht hcont
    rw [hab, hcont, lexLess_initial lt hirr _ t ht]
  · intro i x y hia hib hx hy hbefore
    have hia2 : i < a.size_ := hia
    have hib2 : i < b.size_ := hib
    rw [index_eq_content ha hia2] at hx
    rw [index_eq_content hb hib2] at hy
    have hdec := lexLess_first_difference lt i a.content b.content x y hx hy
      (fun j hj u v hu hv => hbefore j hj u v
        (by rw [index_eq_content ha (by omega)]; exact hu)
        (by rw [index_eq_content hb (by omega)]; exact hv))
    rw [hab]
    exact ⟨fun h => by rw [hdec.1 h], fun h1 h2 => by rw [hdec.2 h1 h2]⟩
  · intro hirr htrans hinc
    refine ⟨?_, ?_, ?_⟩
    · rw [operator_lt_content lt ha ha, lexLess_irrefl lt hirr]
    · intro h1 h2
      rw [hab] at h1
      rw [operator_lt_content lt hb hc] at h2
      rw [operator_lt_content lt ha hc,
        lexLess_trans lt htrans hinc _ _ _ (Option.some.inj h1) (Option.some.inj h2)]
    · intro h1 h2 h3 h4
      rw [hab] at h1
      rw [operator_lt_content lt hb ha] at h2
      rw [operator_lt_content lt hb hc] at h3
      rw [operator_lt_content lt hc hb] at h4
      have hres := lexLess_incomparable_trans lt hinc _ _ _ (Option.some.inj h1)
        (Option.some.inj h2) (Option.some.inj h3) (Option.some.inj h4)
      rw [operator_lt_content lt ha hc, operator_lt_content lt hc ha, hres.1, hres.2]
      exact ⟨rfl, rfl⟩

/-- C15, at `{1, 2} < {1, 2, 3} < {1, 3}` with the order of the natural numbers:
transitivity gives `{1, 2} < {1, 3}`. -/
theorem C15_operator_lt_witness :
    operator_lt (fun x y : Nat => decide (x < y))
      (SimpleVector.mk ⟨some [1, 2, 7]⟩ 3 2) (SimpleVector.mk ⟨some [1, 3]⟩ 2 2) = some true ∧
    operator_lt (fun x y : Nat => decide (x < y))
      (SimpleVector.mk ⟨some [1, 2, 7]⟩ 3 2) (SimpleVector.mk ⟨some [1, 2, 7]⟩ 3 2) =
      some false :=
  have hall := (C15_operator_lt (fun x y : Nat => decide (x < y))
    (SimpleVector.mk ⟨some [1, 2, 7]⟩ 3 2) (SimpleVector.mk ⟨some [1, 2, 3]⟩ 3 3)
    (SimpleVector.mk ⟨some [1, 3]⟩ 2 2)
    (Inv_of_some [1, 2, 7] 3 2 rfl (by decide) (by decide))
    (Inv_of_some [1, 2, 3] 3 3 rfl (by decide) (by decide))
    (Inv_of_some [1, 3] 2 2 rfl (by decide) (by decide))).2.2.2.1
    (fun x => by simp)
    (fun x y z h1 h2 => by
      simp only [decide_eq_true_eq] at h1 h2 ⊢
      omega)
    (fun x y z h1 h2 h3 h4 => by
      simp only [decide_eq_false_iff_not, Nat.not_lt] at h1 h2 h3 h4 ⊢
      omega)
  ⟨hall.2.1 (by decide) (by decide), hall.1⟩

end Claims

end SV
